import Mathlib

/-!
Shallow embedding of the go-polars columnar engine (package `dataframe`,
package `types`, and their helpers) together with proofs about the claims
of the specification.

Conventions used throughout:
* Go `uint64` values are naturals reduced modulo `2 ^ 64` (`m64`);
* Go `int64` values are integers; operations that can overflow reduce the
  result into `[-2^63, 2^63)` with `wrap64`, modelling two's-complement
  wrap-around;
* Go slices become `List`s; a slice read `xs[i]` becomes `xs.getD i d`
  (the default is never reached on the in-range executions the program
  performs);
* Go arrays that are mutated in place (`tmp`, `counts`) become functions
  `Nat → _` updated pointwise with `upd`;
* Go maps become association lists or an `order`/`find` pair, with the
  (unspecified) Go iteration order modelled as insertion order.
-/

/-- Pointwise update of a function, modelling a single array-slot write. -/
def upd {α : Type} (g : Nat → α) (k : Nat) (v : α) : Nat → α :=
  fun x => if x = k then v else g x

/-- Two to the sixty-fourth power, the modulus of Go `uint64` arithmetic. -/
def p64 : Nat := 2 ^ 64

/-- Reduce a natural number to a 64-bit word (Go `uint64` wrap-around). -/
def m64 (n : Nat) : Nat := n % p64

/-- Go `uint64` addition. -/
def add64 (a b : Nat) : Nat := m64 (a + b)

/-- Go `uint64` multiplication. -/
def mul64 (a b : Nat) : Nat := m64 (a * b)

/-- Go `bits.RotateLeft64`. -/
def rotl64 (x r : Nat) : Nat :=
  m64 (x <<< (r % 64)) ||| (m64 x >>> (64 - r % 64))

/-- Reduce an integer into the signed 64-bit range `[-2^63, 2^63)`,
modelling Go `int64` two's-complement wrap-around. -/
def wrap64 (z : Int) : Int := (z + 2 ^ 63) % 2 ^ 64 - 2 ^ 63

/-- Go `uint64(v)` for an `int64` value `v`: the two's-complement bits. -/
def u64ofInt (z : Int) : Nat := (z % (2 ^ 64 : Int)).toNat

/-! ## The in-place permutation engine (`permutation.go`)

The Go `for !visited[j] { ... }` cycle-following loop is modelled with
explicit fuel; one loop iteration either terminates or marks a previously
unvisited slot, so `data.length + 1` units of fuel always suffice. -/

/-- The inner cycle-following loop of `inPlacePermute*`:
`for !visited[j] { visited[j] = true; k := idx[j]; if k == j break;
swap data[j] data[k]; j = k }`. -/
def permLoop {α : Type} [Inhabited α] (idx : List Nat) :
    Nat → List α → List Bool → Nat → List α × List Bool
  | 0, data, visited, _ => (data, visited)
  | fuel + 1, data, visited, j =>
    if visited.getD j false then (data, visited)
    else
      let v2 := visited.set j true
      let k := idx.getD j 0
      if k = j then (data, v2)
      else
        let dj := data.getD j default
        let dk := data.getD k default
        permLoop idx fuel ((data.set j dk).set k dj) v2 k

/-- Generic body shared by the four monomorphic `inPlacePermute*`
functions of `permutation.go`. -/
def inPlacePermuteGo {α : Type} [Inhabited α] (data : List α) (idx : List Nat) :
    List α :=
  let n := data.length
  ((List.range n).foldl
    (fun (st : List α × List Bool) i =>
      if st.2.getD i false ∨ idx.getD i 0 = i then st
      else permLoop idx (n + 1) st.1 st.2 i)
    (data, List.replicate n false)).1

/-- `inPlacePermuteInt64` of `permutation.go`. -/
def inPlacePermuteInt64 (data : List Int) (idx : List Nat) : List Int :=
  inPlacePermuteGo data idx

/-- `inPlacePermuteFloat64` of `permutation.go` (float64 bit patterns). -/
def inPlacePermuteFloat64 (data : List Nat) (idx : List Nat) : List Nat :=
  inPlacePermuteGo data idx

/-- `inPlacePermuteString` of `permutation.go`. -/
def inPlacePermuteString (data : List String) (idx : List Nat) : List String :=
  inPlacePermuteGo data idx

/-- `inPlacePermuteBool` of `permutation.go`. -/
def inPlacePermuteBool (data : List Bool) (idx : List Nat) : List Bool :=
  inPlacePermuteGo data idx

/-! ## The serial radix sort (`radixSortUint64Keys`, radix_purego.go) -/

/-- The bucket digit of one radix pass: Go `(keys[idx] >> shift) & 0xFF`
(masking the low byte is reduction modulo 256). -/
def radixDigit (keys : List Nat) (shift i : Nat) : Nat :=
  (keys.getD i 0 >>> shift) % 256

/-- Histogram collection: `for _, idx := range l { counts[f idx]++ }`. -/
def histo (f : Nat → Nat) (l : List Nat) (init : Nat → Nat) : Nat → Nat :=
  l.foldl (fun c i => upd c (f i) (c (f i) + 1)) init

/-- The ascending prefix scan converting counts to starting offsets:
`sum := 0; for i := 0; i < B; i++ { c := counts[i]; counts[i] = sum; sum += c }`. -/
def scanAsc (c : Nat → Nat) (B : Nat) : (Nat → Nat) × Nat :=
  (List.range B).foldl (fun st i => (upd st.1 i st.2, st.2 + st.1 i)) (c, 0)

/-- The descending prefix scan:
`sum := 0; for i := B-1; i >= 0; i-- { c := counts[i]; counts[i] = sum; sum += c }`. -/
def scanDesc (c : Nat → Nat) (B : Nat) : (Nat → Nat) × Nat :=
  (List.range B).reverse.foldl (fun st i => (upd st.1 i st.2, st.2 + st.1 i)) (c, 0)

/-- The scatter loop of one radix pass:
`for _, idx := range l { b := f idx; pos := counts[b]; tmp[pos] = idx; counts[b]++ }`.
The state is the pair (bucket offsets, destination array). -/
def scatterFold (f : Nat → Nat) (l : List Nat) (st : (Nat → Nat) × (Nat → Nat)) :
    (Nat → Nat) × (Nat → Nat) :=
  l.foldl (fun st i =>
    (upd st.1 (f i) (st.1 (f i) + 1), upd st.2 (st.1 (f i)) i)) st

/-- One pass of the serial radix sort over the current index array. -/
def radixPassGo (keys : List Nat) (ascending : Bool) (shift : Nat)
    (indices : List Nat) : List Nat :=
  let f := radixDigit keys shift
  let counts := histo f indices (fun _ => 0)
  let offsets := if ascending then (scanAsc counts 256).1 else (scanDesc counts 256).1
  let st := scatterFold f indices (offsets, fun _ => 0)
  (List.range indices.length).map st.2

/-- `radixSortUint64Keys` of radix_purego.go: eight 8-bit passes over the
keys, returning the ordering permutation of the original positions. -/
def radixSortUint64Keys (keys : List Nat) (ascending : Bool) : List Nat :=
  (List.range 8).foldl
    (fun ind pass => radixPassGo keys ascending (pass * 8) ind)
    (List.range keys.length)

/-! ## The parallel radix sort (`radixSortUint64KeysParallel`, radix_writer.go)

The per-pass goroutines write disjoint regions of `tmp` and read only the
previous `indices`, so executing the shards in worker order is an exact
model of the concurrent execution. -/

/-- Positions `[w*ss, min(w*ss+ss, n))` of shard `w` (Go `start`/`end`). -/
def shardPos (n ss w : Nat) : List Nat :=
  List.range' (w * ss) (min (w * ss + ss) n - w * ss)

/-- The elements of the current index array that shard `w` processes. -/
def shardElems (ind : List Nat) (n ss w : Nat) : List Nat :=
  (shardPos n ss w).map (fun i => ind.getD i 0)

/-- One pass of the parallel radix sort: per-shard histograms, a global
ascending prefix scan, per-shard starting offsets
(`preOffsets[w][b] = global[b] + counts[0][b] + ... + counts[w-1][b]`),
then the per-shard scatter. -/
def radixParallelPass (workers : Nat) (keys : List Nat) (shift : Nat)
    (ind : List Nat) : List Nat :=
  let n := ind.length
  let ss := (n + workers - 1) / workers
  let f := radixDigit keys shift
  let cw := fun w => histo f (shardElems ind n ss w) (fun _ => 0)
  let globalOff := (scanAsc (fun b => ((List.range workers).map (fun w => cw w b)).sum) 256).1
  let tmp := (List.range workers).foldl
    (fun tmp w =>
      (scatterFold f (shardElems ind n ss w)
        (fun b => globalOff b + ((List.range w).map (fun x => cw x b)).sum, tmp)).2)
    (fun _ => 0)
  (List.range n).map tmp

/-- `radixSortUint64KeysParallel` of radix_writer.go. The number of
available workers (Go `runtime.GOMAXPROCS(0)`) is passed explicitly.
Note that the eight passes ignore `ascending`; a descending sort reverses
the ascending result at the end. -/
def radixSortUint64KeysParallel (workers : Nat) (keys : List Nat)
    (ascending : Bool) : List Nat :=
  let n := keys.length
  if n ≤ 1 then List.range n
  else if workers < 2 ∨ n < 2 ^ 15 then radixSortUint64Keys keys ascending
  else
    let sorted := (List.range 8).foldl
      (fun ind pass => radixParallelPass workers keys (pass * 8) ind)
      (List.range n)
    if ascending then sorted else sorted.reverse

/-- `ParallelRadixSortUint64` of radix_parallel.go: dispatches to the
serial algorithm for small inputs or a single worker. -/
def ParallelRadixSortUint64 (workers : Nat) (keys : List Nat)
    (ascending : Bool) : List Nat :=
  let n := keys.length
  if n ≤ 1 then List.range n
  else if workers < 2 ∨ n < 2 ^ 15 then radixSortUint64Keys keys ascending
  else radixSortUint64KeysParallel workers keys ascending

/-! ## Sort-key encodings (`SortByColumn`, `radixSortInt64`, `radixSortFloat64`) -/

/-- The signed-integer sort key: `uint64(v) ^ 0x8000000000000000`. -/
def encodeInt64 (v : Int) : Nat := u64ofInt v ^^^ 2 ^ 63

/-- The float sort key on the IEEE-754 bit pattern: flip the sign bit of a
non-negative pattern, complement a negative pattern (`^bits` in Go is
exclusive-or with all ones). -/
def encodeFloatBits (b : Nat) : Nat :=
  if b >>> 63 = 0 then b ^^^ 2 ^ 63 else b ^^^ (2 ^ 64 - 1)

/-! ## IEEE-754 float64 semantics

Finite float64 bit patterns denote integer multiples of `2 ^ (-1074)`;
`floatScaled` returns that integer multiple, giving an exact integer
semantics for finite values. Go float64 addition is exact addition of the
scaled values followed by rounding to nearest (ties to even). -/

/-- Sign field of a float64 bit pattern. -/
def fsign (b : Nat) : Nat := b >>> 63 % 2

/-- Exponent field of a float64 bit pattern. -/
def fexp (b : Nat) : Nat := b >>> 52 % 2048

/-- Mantissa field of a float64 bit pattern. -/
def fman (b : Nat) : Nat := b % 2 ^ 52

/-- A pattern with all-ones exponent and a non-zero mantissa is a NaN. -/
def isNaNBits (b : Nat) : Prop := fexp b = 2047 ∧ fman b ≠ 0

instance (b : Nat) : Decidable (isNaNBits b) := by
  unfold isNaNBits; infer_instance

/-- Magnitude of a finite float64 pattern in units of `2 ^ (-1074)`. -/
def fmagScaled (b : Nat) : Nat :=
  if fexp b = 0 then fman b else (2 ^ 52 + fman b) * 2 ^ (fexp b - 1)

/-- Signed value of a finite float64 pattern in units of `2 ^ (-1074)`. -/
def floatScaled (b : Nat) : Int :=
  if fsign b = 0 then (fmagScaled b : Int) else -(fmagScaled b : Int)

/-- Signed value extended to infinities with sentinels beyond every finite
magnitude (finite magnitudes are below `2 ^ 2100`). NaN is excluded by the
comparison function. -/
def floatScaledE (b : Nat) : Int :=
  if fexp b = 2047 then (if fsign b = 0 then 2 ^ 2200 else -(2 ^ 2200)) else floatScaled b

/-- Go `<` on float64: false whenever either side is NaN, otherwise the
numeric comparison (both zeros are equal). -/
def fltB (x y : Nat) : Bool :=
  !decide (isNaNBits x) && !decide (isNaNBits y) && decide (floatScaledE x < floatScaledE y)

/-- Base-two logarithm by fuelled halving; with fuel at least `log2 n` it
equals the bit position of the most significant bit. -/
def log2fuel : Nat → Nat → Nat
  | 0, _ => 0
  | fuel + 1, n => if n < 2 then 0 else log2fuel fuel (n / 2) + 1

/-- Round a positive scaled magnitude to the nearest representable float64
magnitude (ties to even), returning the bit pattern of the magnitude
(sign bit excluded); overflow gives the +infinity pattern. Magnitudes
below `2 ^ 53` are exactly representable (subnormals and the first normal
binade). -/
def roundMagScaled (m : Nat) : Nat :=
  if m < 2 ^ 53 then m
  else
    let L := log2fuel 2300 m
    let s := L - 52
    let q := m >>> s
    let r := m - (q <<< s)
    let half := 2 ^ (s - 1)
    let q2 := if r > half ∨ (r = half ∧ q % 2 = 1) then q + 1 else q
    let L2 := if q2 = 2 ^ 53 then L + 1 else L
    let q3 := if q2 = 2 ^ 53 then 2 ^ 52 else q2
    if L2 ≥ 2098 then 2047 <<< 52
    else (L2 - 52) <<< 52 + q3

/-- Go float64 addition on bit patterns (round to nearest, ties to even).
NaN and infinity cases are handled first; a zero sum is `+0` unless both
operands are negative zero. The aggregation paths only ever reach the
finite cases. -/
def faddB (x y : Nat) : Nat :=
  if decide (isNaNBits x) ∨ decide (isNaNBits y) then 0x7FF8000000000000
  else if fexp x = 2047 then
    if fexp y = 2047 ∧ fsign x ≠ fsign y then 0x7FF8000000000000 else x
  else if fexp y = 2047 then y
  else
    let z := floatScaled x + floatScaled y
    if z = 0 then (if fsign x = 1 ∧ fsign y = 1 then 2 ^ 63 else 0)
    else if z > 0 then roundMagScaled z.toNat
    else 2 ^ 63 + roundMagScaled (-z).toNat

/-! ## xxhash64 (github.com/cespare/xxhash/v2, as called by the grouping
code), over byte lists. -/

def prime1 : Nat := 11400714785074694791
def prime2 : Nat := 14029467366897019727
def prime3 : Nat := 1609587929392839161
def prime4 : Nat := 9650029242287828579
def prime5 : Nat := 2870177450012600261

/-- The xxhash64 round: `acc += input * prime2; acc = rol31(acc); acc *= prime1`. -/
def xxRound (acc input : Nat) : Nat :=
  mul64 (rotl64 (add64 acc (mul64 input prime2)) 31) prime1

/-- The xxhash64 merge round. -/
def xxMergeRound (acc val : Nat) : Nat :=
  add64 (mul64 (acc ^^^ xxRound 0 val) prime1) prime4

/-- Little-endian `uint64` of the first eight bytes. -/
def leU64 : List Nat → Nat
  | b0 :: b1 :: b2 :: b3 :: b4 :: b5 :: b6 :: b7 :: _ =>
    b0 + b1 * 2 ^ 8 + b2 * 2 ^ 16 + b3 * 2 ^ 24 + b4 * 2 ^ 32 + b5 * 2 ^ 40 +
      b6 * 2 ^ 48 + b7 * 2 ^ 56
  | _ => 0

/-- Little-endian `uint32` of the first four bytes. -/
def leU32 : List Nat → Nat
  | b0 :: b1 :: b2 :: b3 :: _ => b0 + b1 * 2 ^ 8 + b2 * 2 ^ 16 + b3 * 2 ^ 24
  | _ => 0

/-- The 32-byte accumulation loop of xxhash64 (fuelled; the fuel is the
byte count, which bounds the iteration count). -/
def xxV14 : Nat → List Nat → Nat × Nat × Nat × Nat → (Nat × Nat × Nat × Nat) × List Nat
  | 0, b, v => (v, b)
  | fuel + 1, b, (v1, v2, v3, v4) =>
    if b.length ≥ 32 then
      xxV14 fuel (b.drop 32)
        (xxRound v1 (leU64 b), xxRound v2 (leU64 (b.drop 8)),
         xxRound v3 (leU64 (b.drop 16)), xxRound v4 (leU64 (b.drop 24)))
    else ((v1, v2, v3, v4), b)

/-- The 8-byte tail loop: `k1 := round(0, u64(b)); h ^= k1; h = rol27(h)*prime1 + prime4`. -/
def xxTail8 : Nat → Nat → List Nat → Nat × List Nat
  | 0, h, b => (h, b)
  | fuel + 1, h, b =>
    if b.length ≥ 8 then
      xxTail8 fuel (add64 (mul64 (rotl64 (h ^^^ xxRound 0 (leU64 b)) 27) prime1) prime4)
        (b.drop 8)
    else (h, b)

/-- The byte tail loop: `h ^= uint64(b[0]) * prime5; h = rol11(h) * prime1`. -/
def xxTail1 (h : Nat) (b : List Nat) : Nat :=
  b.foldl (fun h byte => mul64 (rotl64 (h ^^^ mul64 (m64 byte) prime5) 11) prime1) h

/-- The xxhash64 avalanche finalisation. -/
def xxAvalanche (h : Nat) : Nat :=
  let h1 := h ^^^ (h >>> 33)
  let h2 := mul64 h1 prime2
  let h3 := h2 ^^^ (h2 >>> 29)
  let h4 := mul64 h3 prime3
  h4 ^^^ (h4 >>> 32)

/-- `xxhash.Sum64` with seed zero. -/
def xxhash64 (b : List Nat) : Nat :=
  let n := b.length
  let hr : Nat × List Nat :=
    if n ≥ 32 then
      let vr := xxV14 n b (add64 prime1 prime2, prime2, 0, p64 - prime1)
      let v1 := vr.1.1
      let v2 := vr.1.2.1
      let v3 := vr.1.2.2.1
      let v4 := vr.1.2.2.2
      let h0 := add64 (add64 (add64 (rotl64 v1 1) (rotl64 v2 7)) (rotl64 v3 12)) (rotl64 v4 18)
      (xxMergeRound (xxMergeRound (xxMergeRound (xxMergeRound h0 v1) v2) v3) v4, vr.2)
    else (prime5, b)
  let h1 := add64 hr.1 n
  let t8 := xxTail8 hr.2.length h1 hr.2
  let t4 : Nat × List Nat :=
    if t8.2.length ≥ 4 then
      (add64 (mul64 (rotl64 (t8.1 ^^^ mul64 (m64 (leU32 t8.2)) prime1) 23) prime2) prime3,
       t8.2.drop 4)
    else t8
  xxAvalanche (xxTail1 t4.1 t4.2)

/-- The eight little-endian bytes of a `uint64` (`binary.LittleEndian.PutUint64`). -/
def le8 (v : Nat) : List Nat :=
  (List.range 8).map (fun i => (m64 v >>> (8 * i)) % 256)

/-- UTF-8 bytes of a string (`xxhash.Sum64String` hashes the UTF-8 bytes). -/
def strBytes (s : String) : List Nat :=
  (s.data.map (fun ch => (String.utf8EncodeChar ch).map UInt8.toNat)).flatten

/-! ## The column store and table model (`types.Series`, `dataframe.DataFrame`)

A column's payload; every `types.Series` is built by `NewSeries`, which
sets `Length = len(data)`, so the length field is represented by the
payload length. Float columns store IEEE-754 bit patterns. -/

inductive ColData where
  | ints (xs : List Int)
  | floats (xs : List Nat)
  | strs (xs : List String)
  | bools (xs : List Bool)
deriving DecidableEq

/-- The length of a column. -/
def ColData.length : ColData → Nat
  | .ints xs => xs.length
  | .floats xs => xs.length
  | .strs xs => xs.length
  | .bools xs => xs.length

/-- The first `n` entries of a column (Go `data[:n]`, in-range on every
execution the program performs). -/
def ColData.take (n : Nat) : ColData → ColData
  | .ints xs => .ints (xs.take n)
  | .floats xs => .floats (xs.take n)
  | .strs xs => .strs (xs.take n)
  | .bools xs => .bools (xs.take n)

/-- Gather the entries of a column at the given row indices. -/
def ColData.gather (c : ColData) (rows : List Nat) : ColData :=
  match c with
  | .ints xs => .ints (rows.map (fun r => xs.getD r 0))
  | .floats xs => .floats (rows.map (fun r => xs.getD r 0))
  | .strs xs => .strs (rows.map (fun r => xs.getD r ""))
  | .bools xs => .bools (rows.map (fun r => xs.getD r false))

/-- A single cell value, used for `Filter` predicates. -/
inductive Cell where
  | int (v : Int)
  | float (b : Nat)
  | str (s : String)
  | bool (b : Bool)

/-- `dataframe.DataFrame`: named columns plus the shared row count. The
Go map from names to series is modelled as an association list with
unique keys, in insertion order. -/
structure DataFrame where
  series : List (String × ColData)
  length : Nat
deriving DecidableEq

/-- Column lookup (`df.series[name]`). -/
def DataFrame.lookup (df : DataFrame) (name : String) : Option ColData :=
  (df.series.find? (fun p => p.1 == name)).map (fun p => p.2)

/-- Insert into a name-keyed association list, replacing an existing
binding (Go map assignment). -/
def assocInsert (m : List (String × ColData)) (k : String) (v : ColData) :
    List (String × ColData) :=
  if m.any (fun p => p.1 == k) then
    m.map (fun p => if p.1 == k then (k, v) else p)
  else m ++ [(k, v)]

/-- `dataframe.New`: length taken from the first series, all others
checked against it; mismatch is an error. -/
def New (series : List (String × ColData)) : Except String DataFrame :=
  match series with
  | [] => .ok ⟨[], 0⟩
  | (_, c0) :: _ =>
    if series.all (fun p => p.2.length == c0.length) then .ok ⟨series, c0.length⟩
    else .error "series length mismatch"

/-- The table invariant: every column has `length == row_count`. -/
def DataFrame.Inv (df : DataFrame) : Prop :=
  ∀ p ∈ df.series, ColData.length p.2 = df.length

/-- `DataFrame.Select`. -/
def DataFrame.Select (df : DataFrame) (columns : List String) :
    Except String DataFrame := do
  let sel ← columns.foldlM
    (fun sel col =>
      match df.lookup col with
      | none => .error ("column " ++ col ++ " not found")
      | some s => .ok (assocInsert sel col s))
    ([] : List (String × ColData))
  New sel

/-- The row mask built by `Filter` from the predicate. -/
def maskOf (pred : Cell → Bool) : ColData → List Bool
  | .ints xs => xs.map (fun v => pred (.int v))
  | .floats xs => xs.map (fun v => pred (.float v))
  | .strs xs => xs.map (fun v => pred (.str v))
  | .bools xs => xs.map (fun v => pred (.bool v))

/-- Keep the entries whose mask slot is true. -/
def ColData.keepMask (mask : List Bool) : ColData → ColData
  | .ints xs => .ints ((xs.zip mask).filterMap (fun p => if p.2 then some p.1 else none))
  | .floats xs => .floats ((xs.zip mask).filterMap (fun p => if p.2 then some p.1 else none))
  | .strs xs => .strs ((xs.zip mask).filterMap (fun p => if p.2 then some p.1 else none))
  | .bools xs => .bools ((xs.zip mask).filterMap (fun p => if p.2 then some p.1 else none))

/-- `DataFrame.Filter`. -/
def DataFrame.Filter (df : DataFrame) (column : String) (pred : Cell → Bool) :
    Except String DataFrame :=
  match df.lookup column with
  | none => .error ("column " ++ column ++ " not found")
  | some s =>
    New (df.series.map (fun p => (p.1, ColData.keepMask (maskOf pred s) p.2)))

/-- `DataFrame.Head`: `n` is clamped to the row count, then every column
is truncated to the first `n` entries. -/
def DataFrame.Head (df : DataFrame) (n : Nat) : Except String DataFrame :=
  let m := if n > df.length then df.length else n
  New (df.series.map (fun p => (p.1, p.2.take m)))

/-- Insertion of one index into an index list sorted by `less`; together
with `sortSlice` this is a deterministic model of Go `sort.Slice` (used
only for string and bool sort columns, where the claims do not constrain
the order of equal elements). -/
def insertIdx (less : Nat → Nat → Bool) (i : Nat) : List Nat → List Nat
  | [] => [i]
  | j :: rest => if less i j then i :: j :: rest else j :: insertIdx less i rest

/-- Deterministic comparison sort standing in for Go `sort.Slice`. -/
def sortSlice (less : Nat → Nat → Bool) (l : List Nat) : List Nat :=
  l.foldr (insertIdx less) []

/-- Permute one column in place with the matching `inPlacePermute*`. -/
def ColData.permute (c : ColData) (idx : List Nat) : ColData :=
  match c with
  | .ints xs => .ints (inPlacePermuteInt64 xs idx)
  | .floats xs => .floats (inPlacePermuteFloat64 xs idx)
  | .strs xs => .strs (inPlacePermuteString xs idx)
  | .bools xs => .bools (inPlacePermuteBool xs idx)

/-- `DataFrame.SortByColumn`: build the ordering permutation (radix sort
for numeric columns, comparison sort for strings and bools), then permute
every column in place and return the same table. `workers` is
`runtime.GOMAXPROCS(0)`. -/
def DataFrame.SortByColumn (workers : Nat) (df : DataFrame) (column : String)
    (ascending : Bool) : Except String DataFrame :=
  match df.lookup column with
  | none => .error ("column " ++ column ++ " not found")
  | some s =>
    let indices :=
      match s with
      | .ints data => ParallelRadixSortUint64 workers (data.map encodeInt64) ascending
      | .floats data => ParallelRadixSortUint64 workers (data.map encodeFloatBits) ascending
      | .strs data =>
        sortSlice (fun i j =>
            if ascending then decide (data.getD i "" < data.getD j "")
            else decide (data.getD j "" < data.getD i ""))
          (List.range df.length)
      | .bools data =>
        sortSlice (fun i j =>
            if ascending then !data.getD i false && data.getD j false
            else data.getD i false && !data.getD j false)
          (List.range df.length)
    .ok ⟨df.series.map (fun p => (p.1, p.2.permute indices)), df.length⟩

/-! ## Grouping and aggregation (`GroupBy`, `Aggregate`, `aggregateStreaming`) -/

/-- `dataframe.AggregationType`. -/
inductive AggregationType where
  | Sum
  | Mean
  | Count
  | Min
  | Max
deriving DecidableEq

/-- Go `int64` division truncates toward zero. -/
def goDivInt (a b : Int) : Int := Int.tdiv a b

/-- `GroupedDataFrame`: the parent table, the (lazily built) groups map,
and the grouping columns. The groups map is an association list in
insertion order. -/
structure GroupedDataFrame where
  df : DataFrame
  groups : Option (List ((Nat × Nat) × List Nat))
  columns : List String
deriving DecidableEq

/-- `DataFrame.GroupBy`: verify the grouping columns and defer the actual
work to `Aggregate` (groups map left nil). -/
def DataFrame.GroupBy (df : DataFrame) (columns : List String) :
    Except String GroupedDataFrame :=
  if columns.all (fun c => (df.lookup c).isSome) then
    .ok ⟨df, none, columns⟩
  else .error "column not found"

/-- The hash contribution of one cell (8-byte little-endian buffers for
int64 bit patterns, float64 bit patterns and bools; UTF-8 bytes for
strings), as in `aggregateStreaming` and `buildKey128`. -/
def cellHash (c : ColData) (row : Nat) : Nat :=
  match c with
  | .ints xs => xxhash64 (le8 (u64ofInt (xs.getD row 0)))
  | .floats xs => xxhash64 (le8 (xs.getD row 0))
  | .strs xs => xxhash64 (strBytes (xs.getD row ""))
  | .bools xs => xxhash64 (le8 (if xs.getD row false then 1 else 0))

/-- The 128-bit composite group key of one row: contribution `i` is
rotated left by `(i*11) mod 64` and xor-combined into `hi` for even `i`,
`lo` for odd `i`. -/
def buildKey128 (df : DataFrame) (columns : List String) (row : Nat) : Nat × Nat :=
  columns.enum.foldl
    (fun (k : Nat × Nat) p =>
      let hv := match df.lookup p.2 with
        | some c => cellHash c row
        | none => 0
      let shift := p.1 * 11 % 64
      if p.1 % 2 = 0 then (k.1 ^^^ rotl64 hv shift, k.2)
      else (k.1, k.2 ^^^ rotl64 hv shift))
    (0, 0)

/-- The `int64State` accumulator of `aggregateStreaming`. -/
structure Int64State where
  sum : Int
  min : Int
  max : Int
  count : Int
  rep : Nat
deriving DecidableEq

attribute [ext] Int64State

/-- The `float64State` accumulator (float64 bit patterns). -/
structure Float64State where
  sum : Nat
  min : Nat
  max : Nat
  count : Int
  rep : Nat
deriving DecidableEq

/-- A Go hash map together with its iteration order, modelled as the
insertion order. -/
structure StateMap (σ : Type) where
  order : List (Nat × Nat)
  find : Nat × Nat → Option σ

/-- The empty accumulator map. -/
def StateMap.empty {σ : Type} : StateMap σ := ⟨[], fun _ => none⟩

/-- Processing one row of an int64 value column: create the accumulator on
first sight (`min = max = v`, `rep = i`), then unconditionally run the
update statements (`sum += v` for Sum and Mean, min/max tests, `count++`). -/
def insInt64 (needSum : Bool) (key : Nat × Nat) (i : Nat) (v : Int)
    (m : StateMap Int64State) : StateMap Int64State :=
  let st0 := match m.find key with
    | some st => st
    | none => ⟨0, v, v, 0, i⟩
  let st1 : Int64State :=
    ⟨if needSum then wrap64 (st0.sum + v) else st0.sum,
     if v < st0.min then v else st0.min,
     if v > st0.max then v else st0.max,
     wrap64 (st0.count + 1), st0.rep⟩
  ⟨if (m.find key).isSome then m.order else m.order ++ [key],
   fun k => if k = key then some st1 else m.find k⟩

/-- Accumulate the rows `s, s+1, ..., e-1` (an int64 value column). -/
def accumInt64 (df : DataFrame) (columns : List String) (data : List Int)
    (aggType : AggregationType) (m : StateMap Int64State) (rows : List Nat) :
    StateMap Int64State :=
  rows.foldl
    (fun m i =>
      insInt64 (aggType = .Sum ∨ aggType = .Mean) (buildKey128 df columns i) i
        (data.getD i 0) m)
    m

/-- The serial single-pass accumulation over an int64 value column. -/
def int64Serial (df : DataFrame) (columns : List String) (data : List Int)
    (aggType : AggregationType) : StateMap Int64State :=
  accumInt64 df columns data aggType .empty (List.range data.length)

/-- Merging one worker's local map into the global map: adopt states for
new keys, otherwise add sums and counts and combine min/max (the
representative of the earlier shard is kept). -/
def mergeInt64 (dst src : StateMap Int64State) : StateMap Int64State :=
  src.order.foldl
    (fun d k =>
      match src.find k with
      | none => d
      | some st =>
        match d.find k with
        | none => ⟨d.order ++ [k], fun x => if x = k then some st else d.find x⟩
        | some dstSt =>
          let comb : Int64State :=
            ⟨wrap64 (dstSt.sum + st.sum),
             if st.min < dstSt.min then st.min else dstSt.min,
             if st.max > dstSt.max then st.max else dstSt.max,
             wrap64 (dstSt.count + st.count), dstSt.rep⟩
          ⟨d.order, fun x => if x = k then some comb else d.find x⟩)
    dst

/-- The parallel accumulation path: shard the rows into
`ceil(rows/workers)`-sized contiguous ranges, accumulate each shard into
a private map, and merge the shard maps in worker order. The workers
share no mutable state until the merge, so the worker-order merge is an
exact model of the concurrent execution. -/
def int64Parallel (df : DataFrame) (columns : List String) (data : List Int)
    (aggType : AggregationType) (workers : Nat) : StateMap Int64State :=
  let rows := data.length
  let shard := (rows + workers - 1) / workers
  (List.range workers).foldl
    (fun acc w =>
      let s := w * shard
      let e := min (s + shard) rows
      mergeInt64 acc (accumInt64 df columns data aggType .empty (List.range' s (e - s))))
    .empty

/-- Processing one row of a float64 value column. -/
def insFloat64 (needSum : Bool) (key : Nat × Nat) (i : Nat) (v : Nat)
    (m : StateMap Float64State) : StateMap Float64State :=
  let st0 := match m.find key with
    | some st => st
    | none => ⟨0, v, v, 0, i⟩
  let st1 : Float64State :=
    ⟨if needSum then faddB st0.sum v else st0.sum,
     if fltB v st0.min then v else st0.min,
     if fltB st0.max v then v else st0.max,
     wrap64 (st0.count + 1), st0.rep⟩
  ⟨if (m.find key).isSome then m.order else m.order ++ [key],
   fun k => if k = key then some st1 else m.find k⟩

/-- Accumulate rows of a float64 value column. -/
def accumFloat64 (df : DataFrame) (columns : List String) (data : List Nat)
    (aggType : AggregationType) (m : StateMap Float64State) (rows : List Nat) :
    StateMap Float64State :=
  rows.foldl
    (fun m i =>
      insFloat64 (aggType = .Sum ∨ aggType = .Mean) (buildKey128 df columns i) i
        (data.getD i 0) m)
    m

/-- The serial single-pass accumulation over a float64 value column. -/
def float64Serial (df : DataFrame) (columns : List String) (data : List Nat)
    (aggType : AggregationType) : StateMap Float64State :=
  accumFloat64 df columns data aggType .empty (List.range data.length)

/-- Merging one worker's local float map into the global map. -/
def mergeFloat64 (dst src : StateMap Float64State) : StateMap Float64State :=
  src.order.foldl
    (fun d k =>
      match src.find k with
      | none => d
      | some st =>
        match d.find k with
        | none => ⟨d.order ++ [k], fun x => if x = k then some st else d.find x⟩
        | some dstSt =>
          let comb : Float64State :=
            ⟨faddB dstSt.sum st.sum,
             if fltB st.min dstSt.min then st.min else dstSt.min,
             if fltB dstSt.max st.max then st.max else dstSt.max,
             wrap64 (dstSt.count + st.count), dstSt.rep⟩
          ⟨d.order, fun x => if x = k then some comb else d.find x⟩)
    dst

/-- The parallel accumulation path over a float64 value column. -/
def float64Parallel (df : DataFrame) (columns : List String) (data : List Nat)
    (aggType : AggregationType) (workers : Nat) : StateMap Float64State :=
  let rows := data.length
  let shard := (rows + workers - 1) / workers
  (List.range workers).foldl
    (fun acc w =>
      let s := w * shard
      let e := min (s + shard) rows
      mergeFloat64 acc (accumFloat64 df columns data aggType .empty (List.range' s (e - s))))
    .empty

/-- The representative row of a key in an accumulator map. -/
def repInt64 (m : StateMap Int64State) (k : Nat × Nat) : Nat :=
  match m.find k with
  | some st => st.rep
  | none => 0

/-- The finalised aggregate value of one int64 accumulator. -/
def finalInt64Value (aggType : AggregationType) (st : Int64State) : Int :=
  match aggType with
  | .Sum => st.sum
  | .Mean => goDivInt st.sum st.count
  | .Count => st.count
  | .Min => st.min
  | .Max => st.max

/-- Materialise the int64 aggregation result: one row per key in map
iteration order, grouping columns copied from the representative rows,
the aggregated column finalised per kind; the groups map is filled with
one representative per key. -/
def finalizeInt64 (df : DataFrame) (columns : List String) (column : String)
    (aggType : AggregationType) (m : StateMap Int64State) :
    Except String (DataFrame × List ((Nat × Nat) × List Nat)) :=
  let reps := m.order.map (repInt64 m)
  let groupCols := columns.foldl
    (fun acc col =>
      match df.lookup col with
      | some c => assocInsert acc col (c.gather reps)
      | none => acc)
    ([] : List (String × ColData))
  let aggVals := m.order.map (fun k =>
    match m.find k with
    | some st => finalInt64Value aggType st
    | none => 0)
  let groups := m.order.map (fun k => (k, [repInt64 m k]))
  (New (assocInsert groupCols column (.ints aggVals))).map (fun d => (d, groups))

/-- Bit length of a natural number (position of the most significant bit
plus one; zero for zero). -/
def blen (n : Nat) : Nat := if n = 0 then 0 else log2fuel 4400 n + 1

/-- Go `float64(c)` for an `int64` count: round the integer to the
nearest float64 (ties to even), as scaled magnitude `|c| * 2 ^ 1074`. -/
def floatOfCount (c : Int) : Nat :=
  if c = 0 then 0
  else if c > 0 then roundMagScaled (c.toNat * 2 ^ 1074)
  else 2 ^ 63 + roundMagScaled ((-c).toNat * 2 ^ 1074)

/-- Correctly rounded (nearest, ties to even) float64 magnitude of the
positive rational `N / D`, where `N` is in scaled units. -/
def fdivMag (N D : Nat) : Nat :=
  if N = 0 then 0
  else
    let s1 := blen N - (blen D + 53)
    let q1 := N / (D <<< s1)
    let s := if q1 ≥ 2 ^ 53 then s1 + 1 else s1
    let q := N / (D <<< s)
    let r := N - q * (D <<< s)
    let q2 := if 2 * r > D <<< s ∨ (2 * r = D <<< s ∧ q % 2 = 1) then q + 1 else q
    roundMagScaled (q2 <<< s)

/-- Go float64 division on bit patterns (round to nearest, ties to even),
with the IEEE special cases. -/
def fdivB (x y : Nat) : Nat :=
  if decide (isNaNBits x) ∨ decide (isNaNBits y) then 0x7FF8000000000000
  else if fexp x = 2047 ∧ fexp y = 2047 then 0x7FF8000000000000
  else
    let sgn := (fsign x ^^^ fsign y) * 2 ^ 63
    if fexp x = 2047 then sgn + (2047 <<< 52)
    else if fexp y = 2047 then sgn
    else if fmagScaled y = 0 then
      if fmagScaled x = 0 then 0x7FF8000000000000 else sgn + (2047 <<< 52)
    else if fmagScaled x = 0 then sgn
    else sgn + fdivMag (fmagScaled x * 2 ^ 1074) (fmagScaled y)

/-- `st.sum / float64(st.count)` of the float64 Mean finalisation. -/
def fdivCount (sum : Nat) (count : Int) : Nat := fdivB sum (floatOfCount count)

/-- The representative row of a key in a float accumulator map. -/
def repFloat64 (m : StateMap Float64State) (k : Nat × Nat) : Nat :=
  match m.find k with
  | some st => st.rep
  | none => 0

/-- The finalised aggregate value of one float64 accumulator
(`Mean` divides by the count converted to float64; `Count` converts the
count; only finite small counts occur, converted exactly). -/
def finalFloat64Value (aggType : AggregationType) (st : Float64State) : Nat :=
  match aggType with
  | .Sum => st.sum
  | .Mean => fdivCount st.sum st.count
  | .Count => floatOfCount st.count
  | .Min => st.min
  | .Max => st.max

/-- Materialise the float64 aggregation result. -/
def finalizeFloat64 (df : DataFrame) (columns : List String) (column : String)
    (aggType : AggregationType) (m : StateMap Float64State) :
    Except String (DataFrame × List ((Nat × Nat) × List Nat)) :=
  let reps := m.order.map (repFloat64 m)
  let groupCols := columns.foldl
    (fun acc col =>
      match df.lookup col with
      | some c => assocInsert acc col (c.gather reps)
      | none => acc)
    ([] : List (String × ColData))
  let aggVals := m.order.map (fun k =>
    match m.find k with
    | some st => finalFloat64Value aggType st
    | none => 0)
  let groups := m.order.map (fun k => (k, [repFloat64 m k]))
  (New (assocInsert groupCols column (.floats aggVals))).map (fun d => (d, groups))

/-- `aggregateStreaming`: dispatch on the value column's type; the
parallel path runs for at least 50000 rows and more than one worker
(`workers` is `max(GOMAXPROCS, 1)`), otherwise the serial path. The
result table and the updated handle (its groups map now filled with one
representative per key) are returned; an unsupported value column type is
an error. -/
def aggregateStreaming (workers : Nat) (gdf : GroupedDataFrame)
    (column : String) (s : ColData) (aggType : AggregationType) :
    Except String (DataFrame × GroupedDataFrame) :=
  let workers := max workers 1
  match s with
  | .ints data =>
    let m :=
      if data.length ≥ 50000 ∧ workers > 1 then
        int64Parallel gdf.df gdf.columns data aggType workers
      else int64Serial gdf.df gdf.columns data aggType
    (finalizeInt64 gdf.df gdf.columns column aggType m).map
      (fun p => (p.1, ⟨gdf.df, some p.2, gdf.columns⟩))
  | .floats data =>
    let m :=
      if data.length ≥ 50000 ∧ workers > 1 then
        float64Parallel gdf.df gdf.columns data aggType workers
      else float64Serial gdf.df gdf.columns data aggType
    (finalizeFloat64 gdf.df gdf.columns column aggType m).map
      (fun p => (p.1, ⟨gdf.df, some p.2, gdf.columns⟩))
  | _ => .error "unsupported data type for aggregation"

/-- `sumInt64Indexed` of radix_purego.go. -/
def sumInt64Indexed (data : List Int) (idx : List Nat) : Int :=
  idx.foldl (fun s i => wrap64 (s + data.getD i 0)) 0

/-- `minInt64Indexed` of radix_purego.go. -/
def minInt64Indexed (data : List Int) (idx : List Nat) : Int :=
  match idx with
  | [] => 0
  | i0 :: rest =>
    rest.foldl (fun mn i => if data.getD i 0 < mn then data.getD i 0 else mn)
      (data.getD i0 0)

/-- `maxInt64Indexed` of radix_purego.go. -/
def maxInt64Indexed (data : List Int) (idx : List Nat) : Int :=
  match idx with
  | [] => 0
  | i0 :: rest =>
    rest.foldl (fun mx i => if data.getD i 0 > mx then data.getD i 0 else mx)
      (data.getD i0 0)

/-- `sumFloat64Indexed` of radix_purego.go (float64 bit patterns). -/
def sumFloat64Indexed (data : List Nat) (idx : List Nat) : Nat :=
  idx.foldl (fun s i => faddB s (data.getD i 0)) 0

/-- `minFloat64Indexed` of radix_purego.go. -/
def minFloat64Indexed (data : List Nat) (idx : List Nat) : Nat :=
  match idx with
  | [] => 0
  | i0 :: rest =>
    rest.foldl (fun mn i => if fltB (data.getD i 0) mn then data.getD i 0 else mn)
      (data.getD i0 0)

/-- `maxFloat64Indexed` of radix_purego.go. -/
def maxFloat64Indexed (data : List Nat) (idx : List Nat) : Nat :=
  match idx with
  | [] => 0
  | i0 :: rest =>
    rest.foldl (fun mx i => if fltB mx (data.getD i 0) then data.getD i 0 else mx)
      (data.getD i0 0)

/-- The legacy `Aggregate` path over precomputed per-group index slices:
one result row per group, grouping columns taken from `indices[0]`, the
aggregate computed by the indexed helpers (`Mean` divides the wrapped sum
by the group size, `Count` is the group size). -/
def aggregateLegacy (gdf : GroupedDataFrame) (column : String) (s : ColData)
    (aggType : AggregationType) : Except String (DataFrame × GroupedDataFrame) :=
  let g := gdf.groups.getD []
  let firsts := g.map (fun p => p.2.headD 0)
  let groupCols := gdf.columns.foldl
    (fun acc col =>
      match gdf.df.lookup col with
      | some c => assocInsert acc col (c.gather firsts)
      | none => acc)
    ([] : List (String × ColData))
  match s with
  | .ints data =>
    let aggVals := g.map (fun p =>
      match aggType with
      | .Sum => sumInt64Indexed data p.2
      | .Mean => goDivInt (sumInt64Indexed data p.2) (Int.ofNat p.2.length)
      | .Count => Int.ofNat p.2.length
      | .Min => minInt64Indexed data p.2
      | .Max => maxInt64Indexed data p.2)
    (New (assocInsert groupCols column (.ints aggVals))).map (fun d => (d, gdf))
  | .floats data =>
    let aggVals := g.map (fun p =>
      match aggType with
      | .Sum => sumFloat64Indexed data p.2
      | .Mean => fdivCount (sumFloat64Indexed data p.2) (Int.ofNat p.2.length)
      | .Count => floatOfCount (Int.ofNat p.2.length)
      | .Min => minFloat64Indexed data p.2
      | .Max => maxFloat64Indexed data p.2)
    (New (assocInsert groupCols column (.floats aggVals))).map (fun d => (d, gdf))
  | _ => .error "unsupported data type for aggregation"

/-- `GroupedDataFrame.Aggregate`: the value column must exist; if the
groups map is nil or empty the streaming path runs (and fills the
groups map), otherwise the legacy precomputed-indices path runs. The
mutation of the receiver is made explicit by returning the updated
handle next to the result table. -/
def Aggregate (workers : Nat) (gdf : GroupedDataFrame) (column : String)
    (aggType : AggregationType) : Except String (DataFrame × GroupedDataFrame) :=
  match gdf.df.lookup column with
  | none => .error ("column " ++ column ++ " not found")
  | some s =>
    match gdf.groups with
    | none => aggregateStreaming workers gdf column s aggType
    | some g =>
      if g.isEmpty then aggregateStreaming workers gdf column s aggType
      else aggregateLegacy gdf column s aggType

/-! ## The `types` package table (unnamed source part, `types.DataFrame`)

The `types` package carries its own `DataFrame` with precomputed group
indices; its single-column group-by fast path attaches the ungrouped
original columns by reference. -/

/-- `types.DataFrame`. -/
structure TDataFrame where
  series : List (String × ColData)
  length : Nat
  groupIndices : List (String × List Nat)
  groupColumns : List String
deriving DecidableEq

/-- Column lookup on a `types.DataFrame`. -/
def TDataFrame.lookup (df : TDataFrame) (name : String) : Option ColData :=
  (df.series.find? (fun p => p.1 == name)).map (fun p => p.2)

/-- The table invariant for the `types` package. -/
def TDataFrame.Inv (df : TDataFrame) : Prop :=
  ∀ p ∈ df.series, ColData.length p.2 = df.length

/-- `types.New`. -/
def TNew (series : List (String × ColData)) : Except String TDataFrame :=
  match series with
  | [] => .ok ⟨[], 0, [], []⟩
  | (_, c0) :: _ =>
    if series.all (fun p => p.2.length == c0.length) then
      .ok ⟨series, c0.length, [], []⟩
    else .error "series length mismatch"

/-- The grouping loop of the single-int64-column `GroupBy` fast path:
`for i, v := range data { groups[v] = append(groups[v], i) }` (the map is
modelled as an association list in first-occurrence order). -/
def groupsOfInt64 (data : List Int) : List (Int × List Nat) :=
  data.enum.foldl
    (fun g p =>
      if g.any (fun q => q.1 == p.2) then
        g.map (fun q => if q.1 == p.2 then (q.1, q.2 ++ [p.1]) else q)
      else g ++ [(p.2, [p.1])])
    []

/-- Insertion sort of int64 keys, standing in for `sort.Slice` over the
(distinct) group keys. -/
def sortInt64Keys (keys : List Int) : List Int :=
  keys.foldr
    (fun k sorted =>
      let rec ins (k : Int) : List Int → List Int
        | [] => [k]
        | j :: rest => if k < j then k :: j :: rest else j :: ins k rest
      ins k sorted)
    []

/-- `buildGroupedDataFrameSingleInt64` of the `types` package: the result
holds the sorted distinct keys as the grouped column, references every
other original column unchanged, and sets `Length` to the number of
groups — without re-validating column lengths. -/
def buildGroupedDataFrameSingleInt64 (df : TDataFrame) (column : String)
    (groups : List (Int × List Nat)) : TDataFrame :=
  let keys := sortInt64Keys (groups.map (fun p => p.1))
  let resultSeries :=
    (column, ColData.ints keys) ::
      (df.series.filter (fun p => p.1 != column))
  let groupIndices := keys.map (fun k =>
    (toString k, ((groups.find? (fun p => p.1 == k)).map (fun p => p.2)).getD []))
  ⟨resultSeries, keys.length, groupIndices, [column]⟩

/-- Well-formedness of an accumulator map: the iteration order lists each
key exactly once, exactly the keys the map holds, and the wrapped fields
are in the int64 range. -/
def SMWF (m : StateMap Int64State) : Prop :=
  m.order.Nodup ∧
  (∀ k, (m.find k).isSome ↔ k ∈ m.order) ∧
  (∀ k st, m.find k = some st →
    (-2 ^ 63 ≤ st.sum ∧ st.sum < 2 ^ 63 ∧ -2 ^ 63 ≤ st.count ∧ st.count < 2 ^ 63))

/-- Pointwise equivalence of two accumulator maps. -/
def SMEq (m1 m2 : StateMap Int64State) : Prop :=
  m1.order = m2.order ∧ ∀ k, m1.find k = m2.find k
/-- The rows of `l` that fall in group `k`. -/
def groupRows (df : DataFrame) (cols : List String) (k : Nat × Nat) (l : List Nat) :
    List Nat :=
  l.filter (fun i => buildKey128 df cols i = k)

/-- The int64 values of the rows of `l` that fall in group `k`. -/
def groupVals (df : DataFrame) (cols : List String) (data : List Int) (k : Nat × Nat)
    (l : List Nat) : List Int :=
  (groupRows df cols k l).map (fun i => data.getD i 0)
/-- The elements of `l` that fall in radix bucket `b`. -/
def segOf (f : Nat → Nat) (l : List Nat) (b : Nat) : List Nat :=
  l.filter (fun i => f i = b)
/-- The offsets walk the buckets of `order` consecutively starting at
`base`, each bucket spanning the length of its segment. -/
def offChain (segs : Nat → List Nat) (off0 : Nat → Nat) : Nat → List Nat → Prop
  | _, [] => True
  | base, b :: rest => off0 b = base ∧ offChain segs off0 (base + (segs b).length) rest

/-! ## General helper lemmas -/

theorem except_bind_ok {α β : Type} {e : Except String α} {f : α → Except String β}
    {y : β} (h : (e >>= f) = .ok y) : ∃ x, e = .ok x ∧ f x = .ok y := by
  cases e with
  | error s => simp [Bind.bind, Except.bind] at h
  | ok x => exact ⟨x, rfl, by simpa [Bind.bind, Except.bind] using h⟩

theorem except_map_ok {α β : Type} {e : Except String α} {f : α → β} {y : β}
    (h : e.map f = .ok y) : ∃ x, e = .ok x ∧ y = f x := by
  cases e with
  | error s => simp [Except.map] at h
  | ok x => exact ⟨x, rfl, (by simpa [Except.map] using h : f x = y).symm⟩

theorem xor_two_pow_of_lt : ∀ (w n : Nat), n < 2 ^ w → n ^^^ 2 ^ w = n + 2 ^ w := by
  intro w
  induction w with
  | zero => intro n h; interval_cases n; decide
  | succ w ih =>
    intro n h
    have hb : Nat.bit (decide (n % 2 = 1)) (n >>> 1) = n :=
      Nat.bit_decide_mod_two_eq_one_shiftRight_one n
    have hp : (2 : Nat) ^ (w + 1) = Nat.bit false (2 ^ w) := by
      simp [Nat.bit_val, pow_succ]; ring
    have h2 : n >>> 1 = n / 2 := Nat.shiftRight_one n
    have hm : n >>> 1 < 2 ^ w := by
      rw [pow_succ] at h; omega
    calc n ^^^ 2 ^ (w + 1)
        = Nat.bit (decide (n % 2 = 1)) (n >>> 1) ^^^ Nat.bit false (2 ^ w) := by rw [hb, hp]
      _ = Nat.bit (decide (n % 2 = 1) != false) (n >>> 1 ^^^ 2 ^ w) := Nat.xor_bit _ _ _ _
      _ = Nat.bit (decide (n % 2 = 1)) (n >>> 1 + 2 ^ w) := by rw [Bool.bne_false, ih _ hm]
      _ = Nat.bit (decide (n % 2 = 1)) (n >>> 1) + Nat.bit false (2 ^ w) := Nat.bit_add' _ _ _
      _ = n + 2 ^ (w + 1) := by rw [hb, hp]

theorem xor_ones_of_lt : ∀ (w n : Nat), n < 2 ^ w → n ^^^ (2 ^ w - 1) = 2 ^ w - 1 - n := by
  intro w
  induction w with
  | zero => intro n h; interval_cases n; decide
  | succ w ih =>
    intro n h
    have hb : Nat.bit (decide (n % 2 = 1)) (n >>> 1) = n :=
      Nat.bit_decide_mod_two_eq_one_shiftRight_one n
    have h1 : (1 : Nat) ≤ 2 ^ w := Nat.one_le_two_pow
    have hp : (2 : Nat) ^ (w + 1) - 1 = Nat.bit true (2 ^ w - 1) := by
      simp [Nat.bit_val, pow_succ]; omega
    have h2 : n >>> 1 = n / 2 := Nat.shiftRight_one n
    have hm : n >>> 1 < 2 ^ w := by
      rw [pow_succ] at h; omega
    calc n ^^^ (2 ^ (w + 1) - 1)
        = Nat.bit (decide (n % 2 = 1)) (n >>> 1) ^^^ Nat.bit true (2 ^ w - 1) := by
          rw [hb, hp]
      _ = Nat.bit (decide (n % 2 = 1) != true) (n >>> 1 ^^^ (2 ^ w - 1)) := Nat.xor_bit _ _ _ _
      _ = Nat.bit (decide (n % 2 = 1) != true) (2 ^ w - 1 - n >>> 1) := by rw [ih _ hm]
      _ = 2 ^ (w + 1) - 1 - n := by
          rcases Nat.mod_two_eq_zero_or_one n with h0 | h0 <;>
            simp [h0, Nat.bit_val, pow_succ] <;> omega

theorem xor_two_pow_of_high (m : Nat) (h : m < 2 ^ 63) :
    (m + 2 ^ 63) ^^^ 2 ^ 63 = m := by
  rw [← xor_two_pow_of_lt 63 m h]
  exact Nat.xor_cancel_right _ _

/-! ## Lemmas for the key encodings (claim C6) -/

theorem encodeInt64_eq (v : Int) (h0 : -2 ^ 63 ≤ v) (h1 : v < 2 ^ 63) :
    encodeInt64 v = (v + 2 ^ 63).toNat := by
  unfold encodeInt64 u64ofInt
  rcases le_or_lt 0 v with hv | hv
  · have hmod : v % (2 ^ 64 : Int) = v := Int.emod_eq_of_lt hv (by omega)
    rw [hmod]
    have hlt : v.toNat < 2 ^ 63 := by omega
    rw [xor_two_pow_of_lt 63 _ hlt]
    omega
  · have hmod : v % (2 ^ 64 : Int) = v + 2 ^ 64 := by
      have : (v + 2 ^ 64) % (2 ^ 64 : Int) = v + 2 ^ 64 := Int.emod_eq_of_lt (by omega) (by omega)
      omega
    rw [hmod]
    have hrw : (v + 2 ^ 64).toNat = (v + 2 ^ 63).toNat + 2 ^ 63 := by omega
    rw [hrw, xor_two_pow_of_high _ (by omega)]

theorem fexp_lt (b : Nat) : fexp b < 2048 := Nat.mod_lt _ (by norm_num)

theorem fman_lt (b : Nat) : fman b < 2 ^ 52 := Nat.mod_lt _ (by positivity)

theorem fsign_zero_iff (b : Nat) (hb : b < 2 ^ 64) : fsign b = 0 ↔ b < 2 ^ 63 := by
  unfold fsign
  rcases Nat.lt_or_ge b (2 ^ 63) with h | h
  · have h0 : b >>> 63 = 0 := by
      rw [Nat.shiftRight_eq_div_pow]; exact Nat.div_eq_of_lt h
    simp [h0]
    exact h
  · have h1 : b >>> 63 = 1 := by
      rw [Nat.shiftRight_eq_div_pow]
      omega
    simp [h1]
    omega

theorem fexp_of_low (b : Nat) (hb : b < 2 ^ 63) : fexp b = b >>> 52 := by
  have hlt : b >>> 52 < 2048 := by
    rw [Nat.shiftRight_eq_div_pow]
    omega
  unfold fexp
  exact Nat.mod_eq_of_lt hlt

/-- The exponent and mantissa fields ignore the sign bit. -/
theorem fields_sign_invariant (x : Nat) (hx : 2 ^ 63 ≤ x) (hx2 : x < 2 ^ 64) :
    fexp x = fexp (x - 2 ^ 63) ∧ fman x = fman (x - 2 ^ 63) := by
  constructor
  · unfold fexp
    have h1 : x >>> 52 = (x - 2 ^ 63) >>> 52 + 2 ^ 11 := by
      rw [Nat.shiftRight_eq_div_pow, Nat.shiftRight_eq_div_pow]
      omega
    rw [h1]
    omega
  · unfold fman
    have h1 : x % 2 ^ 52 = (x - 2 ^ 63) % 2 ^ 52 := by
      conv_lhs => rw [show x = (x - 2 ^ 63) + 2 ^ 11 * 2 ^ 52 by ring_nf; omega]
      rw [Nat.add_mul_mod_self_right]
    rw [h1]

theorem fmag_mono (x y : Nat) (hx : x < 2 ^ 63) (hy : y < 2 ^ 63) (hxy : x ≤ y) :
    fmagScaled x ≤ fmagScaled y := by
  unfold fmagScaled fman
  rw [fexp_of_low x hx, fexp_of_low y hy]
  rw [Nat.shiftRight_eq_div_pow, Nat.shiftRight_eq_div_pow]
  have hdiv : x / 2 ^ 52 ≤ y / 2 ^ 52 := Nat.div_le_div_right hxy
  have hxd : x = 2 ^ 52 * (x / 2 ^ 52) + x % 2 ^ 52 := (Nat.div_add_mod x (2 ^ 52)).symm
  have hyd : y = 2 ^ 52 * (y / 2 ^ 52) + y % 2 ^ 52 := (Nat.div_add_mod y (2 ^ 52)).symm
  have hmx : x % 2 ^ 52 < 2 ^ 52 := Nat.mod_lt _ (by positivity)
  have hmy : y % 2 ^ 52 < 2 ^ 52 := Nat.mod_lt _ (by positivity)
  generalize hqx : x / 2 ^ 52 = qx at *
  generalize hqy : y / 2 ^ 52 = qy at *
  generalize hrx : x % 2 ^ 52 = rx at *
  generalize hry : y % 2 ^ 52 = ry at *
  rcases Nat.eq_or_lt_of_le hdiv with heq | hlt
  · rw [heq]
    have hmod : rx ≤ ry := by omega
    split
    · exact hmod
    · exact Nat.mul_le_mul_right _ (by omega)
  · obtain ⟨ky, hky⟩ : ∃ k, qy = k + 1 := ⟨qy - 1, by omega⟩
    have hstep : (2 : Nat) ^ 52 * 2 ^ ky ≥ 2 ^ 52 := by
      have h1p : (1 : Nat) ≤ 2 ^ ky := Nat.one_le_two_pow
      calc (2 : Nat) ^ 52 * 2 ^ ky ≥ 2 ^ 52 * 1 := Nat.mul_le_mul_left _ h1p
        _ = 2 ^ 52 := by ring
    split
    · rename_i hx0
      subst hky
      simp only [Nat.add_sub_cancel]
      calc rx ≤ 2 ^ 52 := by omega
        _ ≤ 2 ^ 52 * 2 ^ ky := hstep
        _ ≤ (2 ^ 52 + ry) * 2 ^ ky := Nat.mul_le_mul_right _ (by omega)
    · rename_i hx0
      obtain ⟨kx, hkx⟩ : ∃ k, qx = k + 1 := ⟨qx - 1, by omega⟩
      subst hkx hky
      simp only [Nat.add_sub_cancel]
      have hkk : kx < ky := by omega
      calc (2 ^ 52 + rx) * 2 ^ kx
          ≤ 2 ^ 53 * 2 ^ kx := Nat.mul_le_mul_right _ (by omega)
        _ = 2 ^ 52 * 2 ^ (kx + 1) := by rw [pow_succ]; ring
        _ ≤ 2 ^ 52 * 2 ^ ky := Nat.mul_le_mul_left _ (Nat.pow_le_pow_right (by norm_num) (by omega))
        _ ≤ (2 ^ 52 + ry) * 2 ^ ky := Nat.mul_le_mul_right _ (by omega)

theorem fmag_sub_sign (x : Nat) (hx : 2 ^ 63 ≤ x) (hx2 : x < 2 ^ 64) :
    fmagScaled x = fmagScaled (x - 2 ^ 63) := by
  obtain ⟨he, hm⟩ := fields_sign_invariant x hx hx2
  unfold fmagScaled
  rw [he, hm]

theorem shiftRight63_eq_zero (x : Nat) (hx : x < 2 ^ 63) : x >>> 63 = 0 := by
  rw [Nat.shiftRight_eq_div_pow]; exact Nat.div_eq_of_lt hx

theorem shiftRight63_eq_one (x : Nat) (hx : 2 ^ 63 ≤ x) (hx2 : x < 2 ^ 64) :
    x >>> 63 = 1 := by
  rw [Nat.shiftRight_eq_div_pow]; omega


theorem encodeFloat_low (b : Nat) (hb : b < 2 ^ 63) :
    encodeFloatBits b = b + 2 ^ 63 := by
  unfold encodeFloatBits
  rw [shiftRight63_eq_zero b hb]
  simp
  exact xor_two_pow_of_lt 63 b hb

theorem encodeFloat_high (b : Nat) (hb : 2 ^ 63 ≤ b) (hb2 : b < 2 ^ 64) :
    encodeFloatBits b = 2 ^ 64 - 1 - b := by
  unfold encodeFloatBits
  rw [shiftRight63_eq_one b hb hb2]
  simp
  exact xor_ones_of_lt 64 b hb2

theorem floatScaled_low (b : Nat) (hb64 : b < 2 ^ 64) (hb : b < 2 ^ 63) :
    floatScaled b = (fmagScaled b : Int) := by
  unfold floatScaled
  rw [(fsign_zero_iff b hb64).mpr hb]
  simp

theorem floatScaled_high (b : Nat) (hb64 : b < 2 ^ 64) (hb : 2 ^ 63 ≤ b) :
    floatScaled b = -(fmagScaled b : Int) := by
  unfold floatScaled
  rw [if_neg (fun h => by have := (fsign_zero_iff b hb64).mp h; omega)]

theorem floatPartC6 :
    ∀ x y : Nat, x < 2 ^ 64 → y < 2 ^ 64 → fexp x ≠ 2047 → fexp y ≠ 2047 →
      floatScaled x < floatScaled y → encodeFloatBits x < encodeFloatBits y := by
  intro x y hx64 hy64 _ _ hlt
  rcases Nat.lt_or_ge x (2 ^ 63) with hx | hx <;>
    rcases Nat.lt_or_ge y (2 ^ 63) with hy | hy
  · rw [floatScaled_low x hx64 hx, floatScaled_low y hy64 hy] at hlt
    have hmag : fmagScaled x < fmagScaled y := by exact_mod_cast hlt
    have hxy : x < y := by
      by_contra hcon
      exact absurd (fmag_mono y x hy hx (by omega)) (by omega)
    rw [encodeFloat_low x hx, encodeFloat_low y hy]
    omega
  · exfalso
    rw [floatScaled_low x hx64 hx, floatScaled_high y hy64 hy] at hlt
    have h1 : (0 : Int) ≤ (fmagScaled x : Int) := Int.natCast_nonneg _
    have h2 : (0 : Int) ≤ (fmagScaled y : Int) := Int.natCast_nonneg _
    omega
  · rw [encodeFloat_high x hx hx64, encodeFloat_low y hy]
    omega
  · rw [floatScaled_high x hx64 hx, floatScaled_high y hy64 hy] at hlt
    have hmag : fmagScaled y < fmagScaled x := by omega
    rw [fmag_sub_sign x hx hx64, fmag_sub_sign y hy hy64] at hmag
    have hylt : y - 2 ^ 63 < x - 2 ^ 63 := by
      by_contra hcon
      exact absurd (fmag_mono (x - 2 ^ 63) (y - 2 ^ 63) (by omega) (by omega) (by omega))
        (by omega)
    rw [encodeFloat_high x hx hx64, encodeFloat_high y hy hy64]
    omega

/-- C6. The sort-key encodings are strictly monotone: for signed 64-bit
integers `a < b`, `encodeInt64 a < encodeInt64 b` as unsigned values
(the key is `uint64(v) XOR 0x8000000000000000`); and for finite float64
bit patterns whose numeric values (represented exactly by `floatScaled`,
in units of `2 ^ (-1074)`) satisfy `a < b`, the float key (sign bit
flipped when the sign bit is 0, full complement when it is 1) of `a` is
strictly below that of `b`. -/
theorem claim_C6 :
    (∀ a b : Int, -2 ^ 63 ≤ a → a < b → b < 2 ^ 63 →
      encodeInt64 a < encodeInt64 b) ∧
    (∀ x y : Nat, x < 2 ^ 64 → y < 2 ^ 64 → fexp x ≠ 2047 → fexp y ≠ 2047 →
      floatScaled x < floatScaled y → encodeFloatBits x < encodeFloatBits y) := by
  constructor
  · intro a b h0 hab h1
    rw [encodeInt64_eq a h0 (by omega), encodeInt64_eq b (by omega) h1]
    omega
  · exact floatPartC6

set_option maxRecDepth 100000 in
/-- Witness for C6 at `a = -1 < b = 0` and at the bit patterns of
`1.0 < 2.0`. -/
theorem claim_C6_witness :
    ((-1 : Int) < 0 ∧ encodeInt64 (-1) < encodeInt64 0) ∧
    (floatScaled 4607182418800017408 < floatScaled 4611686018427387904 ∧
     encodeFloatBits 4607182418800017408 < encodeFloatBits 4611686018427387904) :=
  ⟨⟨by decide, claim_C6.1 (-1) 0 (by decide) (by decide) (by decide)⟩,
   ⟨by decide, claim_C6.2 4607182418800017408 4611686018427387904 (by decide) (by decide)
      (by decide) (by decide) (by decide)⟩⟩

theorem ColData.length_take (c : ColData) (m : Nat) :
    (c.take m).length = min m c.length := by
  cases c <;> simp [ColData.take, ColData.length]

theorem New_ok_inv (series : List (String × ColData)) (df : DataFrame)
    (h : New series = .ok df) : df.Inv := by
  cases series with
  | nil =>
    simp only [New] at h
    cases h
    intro p hp
    simp at hp
  | cons hd tl =>
    obtain ⟨nm, c0⟩ := hd
    simp only [New] at h
    split at h
    · rename_i hall
      cases h
      intro p hp
      have := List.all_eq_true.mp hall p hp
      simpa using this
    · cases h

theorem New_ok_iff (series : List (String × ColData)) :
    (∃ df, New series = .ok df) ↔
      ∀ p ∈ series, ∀ q ∈ series, ColData.length p.2 = ColData.length q.2 := by
  cases series with
  | nil => simp [New]
  | cons hd tl =>
    obtain ⟨nm, c0⟩ := hd
    simp only [New]
    constructor
    · rintro ⟨df, hdf⟩
      split at hdf
      · rename_i hall
        intro p hp q hq
        have h1 := List.all_eq_true.mp hall p hp
        have h2 := List.all_eq_true.mp hall q hq
        simp at h1 h2
        omega
      · cases hdf
    · intro h
      have hall : ((nm, c0) :: tl).all (fun p => p.2.length == c0.length) = true := by
        refine List.all_eq_true.mpr ?_
        intro p hp
        have := h p hp (nm, c0) (by simp)
        simpa using this
      rw [if_pos hall]
      exact ⟨_, rfl⟩

/-- C10. For every well-formed table and every `n : Nat` (the claim's
`0 <= n`), `Head` succeeds and returns a table with `min n row_count`
rows in which every column is the corresponding prefix of the original
column; `n` larger than `row_count` is clamped rather than an error. -/
theorem claim_C10 (df : DataFrame) (n : Nat) (hinv : df.Inv)
    (hemp : df.series = [] → df.length = 0) :
    ∃ df2, df.Head n = .ok df2 ∧ df2.length = min n df.length ∧
      df2.series = df.series.map (fun p => (p.1, p.2.take (min n df.length))) := by
  unfold DataFrame.Head
  have hm : (if n > df.length then df.length else n) = min n df.length := by
    split <;> omega
  rw [hm]
  cases hs : df.series with
  | nil =>
    refine ⟨⟨[], 0⟩, by simp [New], ?_, by simp⟩
    have := hemp hs
    simp only [DataFrame.length]
    omega
  | cons hd tl =>
    obtain ⟨nm, c0⟩ := hd
    have hhd : (nm, c0) ∈ df.series := by rw [hs]; exact List.mem_cons_self _ _
    have hc0 : (c0.take (min n df.length)).length = min n df.length := by
      rw [ColData.length_take]
      have := hinv (nm, c0) hhd
      simp only at this
      omega
    have hall : (((nm, c0) :: tl).map (fun p => (p.1, p.2.take (min n df.length)))).all
        (fun p => p.2.length == (c0.take (min n df.length)).length) = true := by
      refine List.all_eq_true.mpr ?_
      intro p hp
      simp only [List.mem_map] at hp
      obtain ⟨q, hq, rfl⟩ := hp
      have hq2 : q ∈ df.series := by rw [hs]; exact hq
      have hqlen : (q.2.take (min n df.length)).length = min n df.length := by
        rw [ColData.length_take]
        have := hinv q hq2
        omega
      simp [hqlen, hc0]
    simp only [List.map_cons, New]
    rw [if_pos (by simpa using hall)]
    exact ⟨_, rfl, by simpa using hc0, by simp⟩

theorem permLoop_length {α : Type} [Inhabited α] (idx : List Nat) :
    ∀ (fuel : Nat) (data : List α) (visited : List Bool) (j : Nat),
      ((permLoop idx fuel data visited j).1).length = data.length := by
  intro fuel
  induction fuel with
  | zero => intro data visited j; rfl
  | succ fuel ih =>
    intro data visited j
    unfold permLoop
    split
    · rfl
    · dsimp only
      split
      · rfl
      · rw [ih]
        simp

theorem inPlacePermuteGo_length {α : Type} [Inhabited α] (data : List α)
    (idx : List Nat) : (inPlacePermuteGo data idx).length = data.length := by
  unfold inPlacePermuteGo
  have main : ∀ (l : List Nat) (st : List α × List Bool), st.1.length = data.length →
      ((l.foldl (fun st i =>
        if st.2.getD i false ∨ idx.getD i 0 = i then st
        else permLoop idx (data.length + 1) st.1 st.2 i) st).1).length = data.length := by
    intro l
    induction l with
    | nil => intro st h; exact h
    | cons x xs ih =>
      intro st h
      simp only [List.foldl_cons]
      refine ih _ ?_
      split
      · exact h
      · rw [permLoop_length]
        exact h
  exact main _ _ rfl

theorem ColData.length_permute (c : ColData) (idx : List Nat) :
    (c.permute idx).length = c.length := by
  cases c <;>
    simp [ColData.permute, ColData.length, inPlacePermuteInt64, inPlacePermuteFloat64,
      inPlacePermuteString, inPlacePermuteBool, inPlacePermuteGo_length]

theorem sort_ok_inv (w : Nat) (df df2 : DataFrame) (c : String) (asc : Bool)
    (hinv : df.Inv) (h : df.SortByColumn w c asc = .ok df2) : df2.Inv := by
  unfold DataFrame.SortByColumn at h
  split at h
  · cases h
  · cases h
    intro p hp
    simp only [List.mem_map] at hp
    obtain ⟨q, hq, rfl⟩ := hp
    simp only [ColData.length_permute]
    exact hinv q hq

theorem streaming_ok_inv (w : Nat) (gdf : GroupedDataFrame) (c : String)
    (s : ColData) (t : AggregationType) (r : DataFrame) (g2 : GroupedDataFrame)
    (h : aggregateStreaming w gdf c s t = .ok (r, g2)) : r.Inv := by
  unfold aggregateStreaming at h
  split at h
  · unfold finalizeInt64 at h
    obtain ⟨x, hx, hy⟩ := except_map_ok h
    obtain ⟨d, hd, hxd⟩ := except_map_ok hx
    have : r = d := by
      rw [hxd] at hy
      cases hy
      rfl
    exact this ▸ New_ok_inv _ _ hd
  · unfold finalizeFloat64 at h
    obtain ⟨x, hx, hy⟩ := except_map_ok h
    obtain ⟨d, hd, hxd⟩ := except_map_ok hx
    have : r = d := by
      rw [hxd] at hy
      cases hy
      rfl
    exact this ▸ New_ok_inv _ _ hd
  · cases h

theorem legacy_ok_inv (gdf : GroupedDataFrame) (c : String) (s : ColData)
    (t : AggregationType) (r : DataFrame) (g2 : GroupedDataFrame)
    (h : aggregateLegacy gdf c s t = .ok (r, g2)) : r.Inv := by
  unfold aggregateLegacy at h
  split at h
  · obtain ⟨d, hd, hxd⟩ := except_map_ok h
    have : r = d := by
      cases hxd
      rfl
    exact this ▸ New_ok_inv _ _ hd
  · obtain ⟨d, hd, hxd⟩ := except_map_ok h
    have : r = d := by
      cases hxd
      rfl
    exact this ▸ New_ok_inv _ _ hd
  · cases h

theorem aggregate_ok_inv (w : Nat) (gdf : GroupedDataFrame) (c : String)
    (t : AggregationType) (r : DataFrame) (g2 : GroupedDataFrame)
    (h : Aggregate w gdf c t = .ok (r, g2)) : r.Inv := by
  unfold Aggregate at h
  split at h
  · cases h
  · split at h
    · exact streaming_ok_inv _ _ _ _ _ _ _ h
    · split at h
      · exact streaming_ok_inv _ _ _ _ _ _ _ h
      · exact legacy_ok_inv _ _ _ _ _ _ h

theorem select_ok_inv (df df2 : DataFrame) (cols : List String)
    (h : df.Select cols = .ok df2) : df2.Inv := by
  unfold DataFrame.Select at h
  obtain ⟨sel, _, hnew⟩ := except_bind_ok h
  exact New_ok_inv _ _ hnew

theorem filter_ok_inv (df df2 : DataFrame) (c : String) (pred : Cell → Bool)
    (h : df.Filter c pred = .ok df2) : df2.Inv := by
  unfold DataFrame.Filter at h
  split at h
  · cases h
  · exact New_ok_inv _ _ h

theorem head_ok_inv (df df2 : DataFrame) (n : Nat) (h : df.Head n = .ok df2) :
    df2.Inv := by
  unfold DataFrame.Head at h
  exact New_ok_inv _ _ h

/-- C7 (amended). Construction fails exactly when the supplied columns
have unequal lengths, and every table returned by the core operations
(`New`, `Select`, `Filter`, `Head`, `SortByColumn` on an invariant table,
`Aggregate`) satisfies `length == row_count` for every column. (The
`types`-package single-column group-by violates the invariant; see the
counterexample.) -/
theorem claim_C7 :
    (∀ series : List (String × ColData),
      (∃ df, New series = .ok df) ↔
        ∀ p ∈ series, ∀ q ∈ series, ColData.length p.2 = ColData.length q.2) ∧
    (∀ series df, New series = .ok df → df.Inv) ∧
    (∀ (df df2 : DataFrame) (cols : List String), df.Select cols = .ok df2 → df2.Inv) ∧
    (∀ (df df2 : DataFrame) (c : String) (pred : Cell → Bool),
      df.Filter c pred = .ok df2 → df2.Inv) ∧
    (∀ (df df2 : DataFrame) (n : Nat), df.Head n = .ok df2 → df2.Inv) ∧
    (∀ (w : Nat) (df df2 : DataFrame) (c : String) (asc : Bool), df.Inv →
      df.SortByColumn w c asc = .ok df2 → df2.Inv) ∧
    (∀ (w : Nat) (gdf : GroupedDataFrame) (c : String) (t : AggregationType)
      (r : DataFrame) (g2 : GroupedDataFrame),
      Aggregate w gdf c t = .ok (r, g2) → r.Inv) :=
  ⟨New_ok_iff, New_ok_inv, select_ok_inv, filter_ok_inv, head_ok_inv,
   fun w df df2 c asc hinv h => sort_ok_inv w df df2 c asc hinv h,
   fun w gdf c t r g2 h => aggregate_ok_inv w gdf c t r g2 h⟩

/-- C7 counterexample. The `types`-package `buildGroupedDataFrameSingleInt64`,
applied to a two-row table built by `types.New` (columns `g = [1,1]`,
`v = [10,20]`), returns a table with `row_count = 1` that still holds the
two-entry column `v` by reference: the claimed invariant fails. -/
theorem claim_C7_counterexample :
    TNew [("g", .ints [1, 1]), ("v", .ints [10, 20])] =
      .ok ⟨[("g", .ints [1, 1]), ("v", .ints [10, 20])], 2, [], []⟩ ∧
    ¬ TDataFrame.Inv
        (buildGroupedDataFrameSingleInt64
          ⟨[("g", .ints [1, 1]), ("v", .ints [10, 20])], 2, [], []⟩ "g"
          (groupsOfInt64 [1, 1])) := by
  refine ⟨rfl, fun h => ?_⟩
  exact absurd (h ("v", ColData.ints [10, 20]) (by decide)) (by decide)

/-- C8. Referencing a column name that is not present in the table makes
`Select`, `Filter`, `SortByColumn`, `GroupBy` and `Aggregate` return a
typed error and no result table, and `Aggregate` on a string- or
bool-typed value column returns a typed error rather than silently
falling back. -/
theorem claim_C8 :
    (∀ (df : DataFrame) (name : String), df.lookup name = none →
      (∃ e, df.Select [name] = .error e) ∧
      (∀ pred, ∃ e, df.Filter name pred = .error e) ∧
      (∀ w asc, ∃ e, df.SortByColumn w name asc = .error e) ∧
      (∃ e, df.GroupBy [name] = .error e)) ∧
    (∀ (gdf : GroupedDataFrame) (name : String) (w : Nat) (t : AggregationType),
      gdf.df.lookup name = none →
      ∃ e, Aggregate w gdf name t = .error e) ∧
    (∀ (gdf : GroupedDataFrame) (c : String) (w : Nat) (t : AggregationType),
      ((∃ xs, gdf.df.lookup c = some (.strs xs)) ∨
       (∃ xs, gdf.df.lookup c = some (.bools xs))) →
      ∃ e, Aggregate w gdf c t = .error e) := by
  refine ⟨?_, ?_, ?_⟩
  · intro df name hn
    refine ⟨⟨"column " ++ name ++ " not found", ?_⟩,
      fun pred => ⟨"column " ++ name ++ " not found", ?_⟩,
      fun w asc => ⟨"column " ++ name ++ " not found", ?_⟩,
      ⟨"column not found", ?_⟩⟩
    · simp [DataFrame.Select, hn, Bind.bind, Except.bind, List.foldlM]
    · simp [DataFrame.Filter, hn]
    · simp [DataFrame.SortByColumn, hn]
    · simp [DataFrame.GroupBy, hn]
  · intro gdf name w t hn
    refine ⟨"column " ++ name ++ " not found", ?_⟩
    simp [Aggregate, hn]
  · intro gdf c w t hty
    have herr : ∀ s : ColData, ((∃ xs, s = .strs xs) ∨ (∃ xs, s = .bools xs)) →
        gdf.df.lookup c = some s →
        Aggregate w gdf c t = .error "unsupported data type for aggregation" := by
      intro s hs hl
      unfold Aggregate
      rw [hl]
      rcases hs with ⟨xs, rfl⟩ | ⟨xs, rfl⟩ <;>
        cases hg : gdf.groups <;>
          simp [aggregateStreaming, aggregateLegacy]
    rcases hty with ⟨xs, hl⟩ | ⟨xs, hl⟩
    · exact ⟨_, herr _ (Or.inl ⟨xs, rfl⟩) hl⟩
    · exact ⟨_, herr _ (Or.inr ⟨xs, rfl⟩) hl⟩

set_option maxRecDepth 1000000 in
/-- C1 (evaluation at the failing input). Sorting the int64 column
`x = [5,-3,0,2,-1]` ascending does not produce `[-3,-1,0,2,5]`: the
cycle-following permutation performs one extra swap per cycle, and
`SortByColumn` returns the unsorted column `[5,-1,0,2,-3]`. -/
theorem claim_C1 :
    DataFrame.SortByColumn 1 ⟨[("x", .ints [5, -3, 0, 2, -1])], 5⟩ "x" true =
      .ok ⟨[("x", .ints [5, -1, 0, 2, -3])], 5⟩ := by
  rfl

set_option maxRecDepth 1000000 in
/-- C2 (evaluation at the failing input). The sort of `[20,10]` ascending
produces the permutation `[1,0]` (destination slot 0 should receive
source index 1), but the in-place permutation engine applied to
`[20,10]` with that permutation returns the column unchanged instead of
`original[perm[i]] = [10,20]`. -/
theorem claim_C2 :
    ParallelRadixSortUint64 1 ([20, 10].map encodeInt64) true = [1, 0] ∧
    inPlacePermuteInt64 [20, 10] [1, 0] = [20, 10] := ⟨rfl, rfl⟩

/-- Witness for C10 at a two-row table with `n = 5`. -/
theorem claim_C10_witness :
    (DataFrame.Inv ⟨[("x", .ints [7, 8])], 2⟩) ∧
    (∃ df2, DataFrame.Head ⟨[("x", .ints [7, 8])], 2⟩ 5 = .ok df2 ∧
      df2.length = min 5 2 ∧
      df2.series = [("x", ColData.ints [7, 8])].map
        (fun p => (p.1, p.2.take (min 5 2)))) :=
  ⟨fun p hp => by simp at hp; subst hp; rfl, by
    refine claim_C10 ⟨[("x", .ints [7, 8])], 2⟩ 5 ?_ ?_
    · intro p hp
      simp at hp
      subst hp
      rfl
    · intro h
      simp at h⟩

/-- Witness for C8 at the empty table (missing column) and at a
string-typed value column. -/
theorem claim_C8_witness :
    ((⟨[], 0⟩ : DataFrame).lookup "a" = none ∧
      (∃ e, DataFrame.Select ⟨[], 0⟩ ["a"] = .error e) ∧
      (∃ e, Aggregate 1 ⟨⟨[], 0⟩, none, []⟩ "a" .Sum = .error e)) ∧
    (∃ e, Aggregate 1 ⟨⟨[("s", .strs ["x"])], 1⟩, none, ["s"]⟩ "s" .Sum = .error e) := by
  refine ⟨⟨rfl, ?_, ?_⟩, ?_⟩
  · exact (claim_C8.1 ⟨[], 0⟩ "a" rfl).1
  · exact claim_C8.2.1 ⟨⟨[], 0⟩, none, []⟩ "a" 1 .Sum rfl
  · exact claim_C8.2.2 ⟨⟨[("s", .strs ["x"])], 1⟩, none, ["s"]⟩ "s" 1 .Sum
      (Or.inl ⟨["x"], rfl⟩)

/-- Witness for C7: a matched construction succeeds, a mismatched one
fails, and a concrete `Head` result satisfies the invariant. -/
theorem claim_C7_witness :
    (∃ df, New [("a", ColData.ints [1]), ("b", ColData.ints [2])] = .ok df) ∧
    (∀ df, New [("a", ColData.ints [1]), ("b", ColData.ints [2, 3])] = .ok df → False) ∧
    (∀ df2, DataFrame.Head ⟨[("a", ColData.ints [1, 2])], 2⟩ 1 = .ok df2 → df2.Inv) := by
  refine ⟨?_, ?_, ?_⟩
  · exact (claim_C7.1 _).mpr (by decide)
  · intro df h
    have := (claim_C7.1 [("a", ColData.ints [1]), ("b", ColData.ints [2, 3])]).mp ⟨df, h⟩
    exact absurd (this ("a", ColData.ints [1]) (by decide) ("b", ColData.ints [2, 3])
      (by decide)) (by decide)
  · intro df2 h
    exact claim_C7.2.2.2.2.1 _ _ 1 h

theorem wrap64_idem (z : Int) : wrap64 (wrap64 z) = wrap64 z := by
  unfold wrap64; omega

theorem wrap64_add_left (a b : Int) : wrap64 (wrap64 a + b) = wrap64 (a + b) := by
  unfold wrap64; omega

theorem wrap64_add_right (a b : Int) : wrap64 (a + wrap64 b) = wrap64 (a + b) := by
  unfold wrap64; omega

theorem wrap64_range (z : Int) : -2 ^ 63 ≤ wrap64 z ∧ wrap64 z < 2 ^ 63 := by
  unfold wrap64; omega

theorem SMWF_empty : SMWF .empty := by
  refine ⟨List.nodup_nil, fun k => ?_, fun k st h => by cases h⟩
  simp [StateMap.empty]

theorem insInt64_find_self (ns : Bool) (key : Nat × Nat) (i : Nat) (v : Int)
    (m : StateMap Int64State) :
    (insInt64 ns key i v m).find key = some
      (let st0 := match m.find key with
        | some st => st
        | none => ⟨0, v, v, 0, i⟩
      ⟨if ns then wrap64 (st0.sum + v) else st0.sum,
       if v < st0.min then v else st0.min,
       if v > st0.max then v else st0.max,
       wrap64 (st0.count + 1), st0.rep⟩) := by
  simp [insInt64]

theorem insInt64_find_other (ns : Bool) (key : Nat × Nat) (i : Nat) (v : Int)
    (m : StateMap Int64State) (k : Nat × Nat) (hk : k ≠ key) :
    (insInt64 ns key i v m).find k = m.find k := by
  simp [insInt64, hk]

theorem insInt64_order (ns : Bool) (key : Nat × Nat) (i : Nat) (v : Int)
    (m : StateMap Int64State) :
    (insInt64 ns key i v m).order =
      if (m.find key).isSome then m.order else m.order ++ [key] := by
  simp [insInt64]

theorem SMWF_ins (ns : Bool) (key : Nat × Nat) (i : Nat) (v : Int)
    (m : StateMap Int64State) (h : SMWF m) : SMWF (insInt64 ns key i v m) := by
  obtain ⟨hnd, hmem, hsum⟩ := h
  refine ⟨?_, ?_, ?_⟩
  · rw [insInt64_order]
    split
    · exact hnd
    · rename_i hs
      rw [List.nodup_append]
      refine ⟨hnd, List.nodup_singleton _, ?_⟩
      intro a ha hb
      have hb2 : a = key := by simpa using hb
      rw [hb2] at ha
      have hks := (hmem key).mpr ha
      rw [Option.isSome_iff_exists] at hks
      obtain ⟨st, hst⟩ := hks
      exact hs (by simp [hst])
  · intro k
    rw [insInt64_order]
    rcases eq_or_ne k key with rfl | hk
    · rw [insInt64_find_self]
      simp
      split
      · rename_i hs
        exact (hmem k).mp hs
      · simp
    · rw [insInt64_find_other _ _ _ _ _ _ hk]
      split
      · exact hmem k
      · rw [hmem k]
        simp [hk]
  · intro k st hst
    rcases eq_or_ne k key with rfl | hk
    · rw [insInt64_find_self] at hst
      rcases hfind : m.find k with _ | st0 <;> rw [hfind] at hst <;>
        injection hst with hst <;> subst hst <;>
        simp only []
      · refine ⟨?_, ?_, ?_, ?_⟩
        · split
          · exact (wrap64_range _).1
          · omega
        · split
          · exact (wrap64_range _).2
          · omega
        · exact (wrap64_range _).1
        · exact (wrap64_range _).2
      · obtain ⟨h1, h2, h3, h4⟩ := hsum k st0 hfind
        refine ⟨?_, ?_, (wrap64_range _).1, (wrap64_range _).2⟩
        · split
          · exact (wrap64_range _).1
          · exact h1
        · split
          · exact (wrap64_range _).2
          · exact h2
    · rw [insInt64_find_other _ _ _ _ _ _ hk] at hst
      exact hsum k st hst

theorem SMEq.refl (m : StateMap Int64State) : SMEq m m := ⟨rfl, fun _ => rfl⟩

theorem SMEq.trans {a b c : StateMap Int64State} (h1 : SMEq a b) (h2 : SMEq b c) :
    SMEq a c := ⟨h1.1.trans h2.1, fun k => (h1.2 k).trans (h2.2 k)⟩

theorem insInt64_smeq (ns : Bool) (key : Nat × Nat) (i : Nat) (v : Int)
    {m m2 : StateMap Int64State} (h : SMEq m m2) :
    SMEq (insInt64 ns key i v m) (insInt64 ns key i v m2) := by
  obtain ⟨ho, hf⟩ := h
  unfold insInt64
  rw [hf key, ho]
  exact ⟨rfl, fun k => by
    dsimp only
    rw [hf k]⟩

theorem merge_nil (d : StateMap Int64State) (f : Nat × Nat → Option Int64State) :
    mergeInt64 d ⟨[], f⟩ = d := rfl

theorem merge_cons (d : StateMap Int64State) (k0 : Nat × Nat)
    (os : List (Nat × Nat)) (f : Nat × Nat → Option Int64State) :
    mergeInt64 d ⟨k0 :: os, f⟩ =
      mergeInt64
        (match f k0 with
          | none => d
          | some st =>
            match d.find k0 with
            | none => ⟨d.order ++ [k0], fun x => if x = k0 then some st else d.find x⟩
            | some dstSt =>
              ⟨d.order, fun x => if x = k0 then some
                  ⟨wrap64 (dstSt.sum + st.sum),
                   if st.min < dstSt.min then st.min else dstSt.min,
                   if st.max > dstSt.max then st.max else dstSt.max,
                   wrap64 (dstSt.count + st.count), dstSt.rep⟩
                else d.find x⟩)
        ⟨os, f⟩ := by
  unfold mergeInt64
  rw [List.foldl_cons]

theorem mergeStep_find_other (d : StateMap Int64State) (k0 k : Nat × Nat)
    (f : Nat × Nat → Option Int64State) (hk : k ≠ k0) :
    (match f k0 with
      | none => d
      | some st =>
        match d.find k0 with
        | none => (⟨d.order ++ [k0], fun x => if x = k0 then some st else d.find x⟩ : StateMap Int64State)
        | some dstSt =>
          ⟨d.order, fun x => if x = k0 then some
              ⟨wrap64 (dstSt.sum + st.sum),
               if st.min < dstSt.min then st.min else dstSt.min,
               if st.max > dstSt.max then st.max else dstSt.max,
               wrap64 (dstSt.count + st.count), dstSt.rep⟩
            else d.find x⟩).find k = d.find k := by
  rcases f k0 with _ | st
  · rfl
  · rcases d.find k0 with _ | dstSt <;> simp [hk]

theorem merge_find_not_mem (os : List (Nat × Nat))
    (f : Nat × Nat → Option Int64State) :
    ∀ (d : StateMap Int64State) (k : Nat × Nat), k ∉ os →
      (mergeInt64 d ⟨os, f⟩).find k = d.find k := by
  induction os with
  | nil => intro d k _; rfl
  | cons k0 os ih =>
    intro d k hk
    rw [merge_cons]
    rw [ih _ k (by simp at hk; exact hk.2)]
    exact mergeStep_find_other d k0 k f (by simp at hk; exact hk.1)

theorem mergeStep_order (d : StateMap Int64State) (k0 : Nat × Nat)
    (f : Nat × Nat → Option Int64State) :
    (match f k0 with
      | none => d
      | some st =>
        match d.find k0 with
        | none => (⟨d.order ++ [k0], fun x => if x = k0 then some st else d.find x⟩ : StateMap Int64State)
        | some dstSt =>
          ⟨d.order, fun x => if x = k0 then some
              ⟨wrap64 (dstSt.sum + st.sum),
               if st.min < dstSt.min then st.min else dstSt.min,
               if st.max > dstSt.max then st.max else dstSt.max,
               wrap64 (dstSt.count + st.count), dstSt.rep⟩
            else d.find x⟩).order =
      d.order ++ (if (f k0).isSome ∧ (d.find k0).isNone then [k0] else []) := by
  rcases f k0 with _ | st
  · simp
  · rcases hd : d.find k0 with _ | dstSt <;> simp [hd]

theorem filter_congr_mem {α : Type} (os : List α) (p q : α → Bool)
    (h : ∀ a ∈ os, p a = q a) : os.filter p = os.filter q :=
  List.filter_congr h

theorem merge_order (os : List (Nat × Nat)) (f : Nat × Nat → Option Int64State) :
    ∀ (d : StateMap Int64State), os.Nodup →
      (mergeInt64 d ⟨os, f⟩).order =
        d.order ++ os.filter (fun k => (f k).isSome ∧ (d.find k).isNone) := by
  induction os with
  | nil => intro d _; simp [merge_nil]
  | cons k0 os ih =>
    intro d hnd
    rw [List.nodup_cons] at hnd
    rw [merge_cons]
    rcases hf0 : f k0 with _ | st
    · simp only [hf0]
      rw [ih _ hnd.2, List.filter_cons]
      simp [hf0]
    · rcases hd0 : d.find k0 with _ | dst
      · simp only [hf0, hd0]
        rw [ih _ hnd.2]
        rw [filter_congr_mem os _ (fun k => decide ((f k).isSome ∧ (d.find k).isNone))
          (fun k hk => by
            have hne : k ≠ k0 := fun h => hnd.1 (h ▸ hk)
            simp [hne])]
        rw [List.filter_cons]
        simp only [hf0, hd0]
        simp
      · simp only [hf0, hd0]
        rw [ih _ hnd.2]
        rw [filter_congr_mem os _ (fun k => decide ((f k).isSome ∧ (d.find k).isNone))
          (fun k hk => by
            have hne : k ≠ k0 := fun h => hnd.1 (h ▸ hk)
            simp [hne])]
        rw [List.filter_cons]
        simp [hf0, hd0]

theorem merge_find_mem (os : List (Nat × Nat)) (f : Nat × Nat → Option Int64State) :
    ∀ (d : StateMap Int64State) (k : Nat × Nat), os.Nodup → k ∈ os →
      (mergeInt64 d ⟨os, f⟩).find k =
        match f k with
        | none => d.find k
        | some st =>
          match d.find k with
          | none => some st
          | some dstSt => some
              ⟨wrap64 (dstSt.sum + st.sum),
               if st.min < dstSt.min then st.min else dstSt.min,
               if st.max > dstSt.max then st.max else dstSt.max,
               wrap64 (dstSt.count + st.count), dstSt.rep⟩ := by
  induction os with
  | nil => intro d k _ hk; cases hk
  | cons k0 os ih =>
    intro d k hnd hk
    rw [List.nodup_cons] at hnd
    rw [merge_cons]
    rcases List.mem_cons.mp hk with rfl | hmem
    · rw [merge_find_not_mem os f _ k hnd.1]
      rcases hf0 : f k with _ | st
      · simp only [hf0]
      · rcases hd0 : d.find k with _ | dst <;> simp [hf0, hd0]
    · have hne : k ≠ k0 := fun h => hnd.1 (h ▸ hmem)
      rw [ih _ k hnd.2 hmem]
      rw [mergeStep_find_other d k0 k f hne]

theorem merge_find_not_mem2 (d src : StateMap Int64State) (k : Nat × Nat)
    (hk : k ∉ src.order) : (mergeInt64 d src).find k = d.find k :=
  merge_find_not_mem src.order src.find d k hk

theorem merge_order2 (d src : StateMap Int64State) (hnd : src.order.Nodup) :
    (mergeInt64 d src).order =
      d.order ++ src.order.filter (fun k => (src.find k).isSome ∧ (d.find k).isNone) :=
  merge_order src.order src.find d hnd

theorem merge_find_mem2 (d src : StateMap Int64State) (k : Nat × Nat)
    (hnd : src.order.Nodup) (hk : k ∈ src.order) :
    (mergeInt64 d src).find k =
      match src.find k with
      | none => d.find k
      | some st =>
        match d.find k with
        | none => some st
        | some dstSt => some
            ⟨wrap64 (dstSt.sum + st.sum),
             if st.min < dstSt.min then st.min else dstSt.min,
             if st.max > dstSt.max then st.max else dstSt.max,
             wrap64 (dstSt.count + st.count), dstSt.rep⟩ :=
  merge_find_mem src.order src.find d k hnd hk

theorem merge_ins (ns : Bool) (key : Nat × Nat) (i : Nat) (v : Int)
    (acc M : StateMap Int64State) (hacc : SMWF acc) (hM : SMWF M) :
    SMEq (mergeInt64 acc (insInt64 ns key i v M))
      (insInt64 ns key i v (mergeInt64 acc M)) := by
  have hinswf := SMWF_ins ns key i v M hM
  obtain ⟨hndM, hmemM, hrangeM⟩ := hM
  obtain ⟨hndA, hmemA, hsumA⟩ := hacc
  obtain ⟨hndI, hmemI, hrangeI⟩ := hinswf
  constructor
  · -- iteration orders agree
    rw [merge_order2 _ _ hndI, insInt64_order]
    rw [insInt64_order]
    rcases hfk : M.find key with _ | stk
    · -- key is new in M
      have hknotM : key ∉ M.order := fun hc => by
        have := (hmemM key).mpr hc
        simp [hfk] at this
      simp only [hfk, Option.isSome_none, Bool.false_eq_true, if_false]
      have hmerge_none : (mergeInt64 acc M).find key = acc.find key :=
        merge_find_not_mem2 acc M key hknotM
      have hfilter : (M.order ++ [key]).filter
          (fun k => ((insInt64 ns key i v M).find k).isSome ∧ (acc.find k).isNone) =
          M.order.filter (fun k => ((M.find k).isSome ∧ (acc.find k).isNone)) ++
            (if (acc.find key).isNone then [key] else []) := by
        rw [List.filter_append]
        congr 1
        · refine filter_congr_mem _ _ _ (fun k hk => ?_)
          have hne : k ≠ key := fun h => hknotM (h ▸ hk)
          rw [insInt64_find_other _ _ _ _ _ _ hne]
        · rw [List.filter_singleton]
          rw [insInt64_find_self]
          simp only [Option.isSome_some, true_and]
          split_ifs <;> simp_all
      rw [hfilter]
      rw [merge_order2 _ _ hndM]
      rw [hmerge_none]
      rcases hacck : acc.find key with _ | stA <;> simp [hacck, List.append_assoc]
    · -- key already present in M
      have hkM : key ∈ M.order := (hmemM key).mp (by simp [hfk])
      simp only [hfk, Option.isSome_some, if_true]
      have hmerge_some : ((mergeInt64 acc M).find key).isSome := by
        rw [merge_find_mem2 acc M key hndM hkM, hfk]
        rcases acc.find key with _ | stA <;> simp
      rw [if_pos hmerge_some]
      rw [merge_order2 _ _ hndM]
      congr 1
      refine filter_congr_mem _ _ _ (fun k hk => ?_)
      rcases eq_or_ne k key with rfl | hne
      · rw [insInt64_find_self]
        simp [hfk]
      · rw [insInt64_find_other _ _ _ _ _ _ hne]
  · -- the maps agree pointwise
    intro k
    rcases eq_or_ne k key with rfl | hne
    · have hkI : k ∈ (insInt64 ns k i v M).order := by
        rw [insInt64_order]
        split
        · exact (hmemM k).mp (by assumption)
        · simp
      rw [merge_find_mem2 _ _ _ hndI hkI]
      rw [insInt64_find_self, insInt64_find_self]
      rcases hfk : M.find k with _ | stk
      · have hknotM : k ∉ M.order := fun hc => by
          have := (hmemM k).mpr hc
          simp [hfk] at this
        have hmerge_none : (mergeInt64 acc M).find k = acc.find k :=
          merge_find_not_mem2 acc M k hknotM
        rw [hmerge_none]
        rcases hacck : acc.find k with _ | stA
        · simp [hfk]
        · have hrange := hsumA k stA hacck
          simp only [hfk]
          congr 1
          refine Int64State.ext ?_ ?_ ?_ ?_ ?_ <;> dsimp only <;>
            (try unfold wrap64) <;> (try split_ifs) <;> omega
      · have hkM : k ∈ M.order := (hmemM k).mp (by simp [hfk])
        rw [merge_find_mem2 acc M k hndM hkM, hfk]
        rcases hacck : acc.find k with _ | stA
        · simp [hfk]
        · simp only []
          congr 1
          refine Int64State.ext ?_ ?_ ?_ ?_ ?_ <;> dsimp only <;>
            (try unfold wrap64) <;> (try split_ifs) <;> omega
    · rw [insInt64_find_other _ _ _ _ _ _ hne]
      by_cases hkM : k ∈ M.order
      · have hkI : k ∈ (insInt64 ns key i v M).order := by
          rw [insInt64_order]
          split
          · exact hkM
          · simp [hkM]
        rw [merge_find_mem2 _ _ _ hndI hkI]
        rw [merge_find_mem2 acc M k hndM hkM]
        rw [insInt64_find_other _ _ _ _ _ _ hne]
      · have hkI : k ∉ (insInt64 ns key i v M).order := by
          rw [insInt64_order]
          split
          · exact hkM
          · simp [hkM, hne]
        rw [merge_find_not_mem2 _ _ _ hkI]
        rw [merge_find_not_mem2 acc M k hkM]

theorem merge_smeq_dst (os : List (Nat × Nat)) (f : Nat × Nat → Option Int64State) :
    ∀ (d d2 : StateMap Int64State), SMEq d d2 →
      SMEq (mergeInt64 d ⟨os, f⟩) (mergeInt64 d2 ⟨os, f⟩) := by
  induction os with
  | nil => intro d d2 h; exact h
  | cons k0 os ih =>
    intro d d2 h
    rw [merge_cons, merge_cons]
    refine ih _ _ ?_
    obtain ⟨ho, hf⟩ := h
    rcases f k0 with _ | st
    · exact ⟨ho, hf⟩
    · rw [hf k0, ho]
      rcases d2.find k0 with _ | dst
      · exact ⟨rfl, fun k => by dsimp only; rw [hf k]⟩
      · exact ⟨rfl, fun k => by dsimp only; rw [hf k]⟩

theorem merge_smeq_dst2 (src : StateMap Int64State) (d d2 : StateMap Int64State)
    (h : SMEq d d2) : SMEq (mergeInt64 d src) (mergeInt64 d2 src) :=
  merge_smeq_dst src.order src.find d d2 h

theorem accumInt64_append (df : DataFrame) (cols : List String) (data : List Int)
    (t : AggregationType) (m : StateMap Int64State) (l1 l2 : List Nat) :
    accumInt64 df cols data t m (l1 ++ l2) =
      accumInt64 df cols data t (accumInt64 df cols data t m l1) l2 := by
  unfold accumInt64
  rw [List.foldl_append]

theorem SMWF_accum (df : DataFrame) (cols : List String) (data : List Int)
    (t : AggregationType) (l : List Nat) :
    ∀ (m : StateMap Int64State), SMWF m → SMWF (accumInt64 df cols data t m l) := by
  induction l with
  | nil => intro m h; exact h
  | cons i l ih =>
    intro m h
    unfold accumInt64
    rw [List.foldl_cons]
    exact ih _ (SMWF_ins _ _ _ _ _ h)

theorem accum_smeq (df : DataFrame) (cols : List String) (data : List Int)
    (t : AggregationType) (l : List Nat) :
    ∀ (m m2 : StateMap Int64State), SMEq m m2 →
      SMEq (accumInt64 df cols data t m l) (accumInt64 df cols data t m2 l) := by
  induction l with
  | nil => intro m m2 h; exact h
  | cons i l ih =>
    intro m m2 h
    unfold accumInt64
    rw [List.foldl_cons, List.foldl_cons]
    exact ih _ _ (insInt64_smeq _ _ _ _ h)

theorem merge_accum (df : DataFrame) (cols : List String) (data : List Int)
    (t : AggregationType) (l : List Nat) (acc : StateMap Int64State)
    (hacc : SMWF acc) :
    SMEq (mergeInt64 acc (accumInt64 df cols data t .empty l))
      (accumInt64 df cols data t acc l) := by
  induction l using List.reverseRecOn with
  | nil => exact SMEq.refl _
  | append_singleton l i ih =>
    rw [accumInt64_append, accumInt64_append]
    have h1 : SMEq
        (mergeInt64 acc (accumInt64 df cols data t
          (accumInt64 df cols data t .empty l) [i]))
        (insInt64 (t = .Sum ∨ t = .Mean) (buildKey128 df cols i) i (data.getD i 0)
          (mergeInt64 acc (accumInt64 df cols data t .empty l))) := by
      unfold accumInt64
      rw [List.foldl_cons]
      exact merge_ins _ _ _ _ acc _ hacc
        (SMWF_accum df cols data t l .empty SMWF_empty)
    refine h1.trans ?_
    have h2 := insInt64_smeq (t = .Sum ∨ t = .Mean) (buildKey128 df cols i) i
      (data.getD i 0) ih
    refine h2.trans ?_
    unfold accumInt64
    rw [List.foldl_cons]
    exact SMEq.refl _

theorem ceil_div_mul_ge (n w : Nat) (hw : 1 ≤ w) : n ≤ w * ((n + w - 1) / w) := by
  by_contra hcon
  push_neg at hcon
  have hq : (n + w - 1) / w + 1 ≤ (n + w - 1) / w := by
    have hmul : ((n + w - 1) / w + 1) * w ≤ n + w - 1 := by
      have h1 : w * ((n + w - 1) / w) + 1 ≤ n := hcon
      rw [Nat.add_mul, Nat.one_mul, Nat.mul_comm]
      omega
    have := (Nat.le_div_iff_mul_le (by omega : 0 < w)).mpr hmul
    omega
  omega

theorem int64Parallel_serial (df : DataFrame) (cols : List String)
    (data : List Int) (t : AggregationType) (w : Nat) (hw : 1 ≤ w) :
    SMEq (int64Parallel df cols data t w) (int64Serial df cols data t) := by
  unfold int64Parallel int64Serial
  set n := data.length with hn
  set shard := (n + w - 1) / w with hshard
  have main : ∀ j, j ≤ w →
      SMEq ((List.range j).foldl
        (fun acc x =>
          mergeInt64 acc (accumInt64 df cols data t .empty
            (List.range' (x * shard) (min (x * shard + shard) n - x * shard))))
        .empty)
        (accumInt64 df cols data t .empty (List.range' 0 (min (j * shard) n))) := by
    intro j
    induction j with
    | zero =>
      intro _
      simp
      exact SMEq.refl _
    | succ j ih =>
      intro hj
      rw [List.range_succ, List.foldl_append, List.foldl_cons, List.foldl_nil]
      have hstep := merge_smeq_dst2
        (accumInt64 df cols data t .empty
          (List.range' (j * shard) (min (j * shard + shard) n - j * shard)))
        _ _ (ih (by omega))
      refine hstep.trans ?_
      have hmrg := merge_accum df cols data t
        (List.range' (j * shard) (min (j * shard + shard) n - j * shard))
        (accumInt64 df cols data t .empty (List.range' 0 (min (j * shard) n)))
        (SMWF_accum df cols data t _ .empty SMWF_empty)
      refine hmrg.trans ?_
      rw [← accumInt64_append]
      have hconcat : List.range' 0 (min (j * shard) n) ++
          List.range' (j * shard) (min (j * shard + shard) n - j * shard) =
          List.range' 0 (min ((j + 1) * shard) n) := by
        have hsucc : (j + 1) * shard = j * shard + shard := by ring
        rcases Nat.lt_or_ge (j * shard) n with hlt | hge
        · have h1 : min (j * shard) n = j * shard := Nat.min_eq_left hlt.le
          rw [h1]
          have happ := List.range'_append 0 (j * shard)
            (min (j * shard + shard) n - j * shard) 1
          simp only [Nat.one_mul, Nat.zero_add] at happ
          rw [happ]
          congr 1
          rw [hsucc]
          have hle : j * shard ≤ min (j * shard + shard) n :=
            Nat.le_min.mpr ⟨Nat.le_add_right _ _, hlt.le⟩
          exact Nat.sub_add_cancel hle
        · have h1 : min (j * shard) n = n := Nat.min_eq_right hge
          have hx : n ≤ j * shard + shard := le_trans hge (Nat.le_add_right _ _)
          have h2 : min (j * shard + shard) n = n := Nat.min_eq_right hx
          have h3 : min ((j + 1) * shard) n = n := by
            rw [hsucc]
            exact Nat.min_eq_right hx
          rw [h1, h2, h3]
          have h4 : n - j * shard = 0 := Nat.sub_eq_zero_of_le hge
          rw [h4]
          simp
      rw [hconcat]
      exact SMEq.refl _
  have hfinal := main w (Nat.le_refl w)
  have hcover : min (w * shard) n = n := by
    have hge := ceil_div_mul_ge n w hw
    rw [hshard]
    exact Nat.min_eq_right hge
  rw [hcover] at hfinal
  rw [← List.range_eq_range'] at hfinal
  exact hfinal

theorem finalizeInt64_congr (df : DataFrame) (cols : List String) (col : String)
    (t : AggregationType) (m m2 : StateMap Int64State) (h : SMEq m m2) :
    finalizeInt64 df cols col t m = finalizeInt64 df cols col t m2 := by
  obtain ⟨ho, hf⟩ := h
  have hff : m.find = m2.find := funext hf
  unfold finalizeInt64 repInt64
  rw [ho, hff]

/-- C5: on int64 value columns the parallel sharded-accumulate-and-merge
aggregation agrees with the serial single pass for every worker count at
least 1 (hence 1, 2 and 8) and the shard boundaries the worker count
induces: the accumulator maps agree pointwise and the finalised tables
are equal. (The analogous statement for float64 value columns is false;
see the counterexample.) -/
theorem claim_C5 :
    ∀ (df : DataFrame) (cols : List String) (col : String) (data : List Int)
      (t : AggregationType) (w : Nat), 1 ≤ w →
      (∀ k, (int64Parallel df cols data t w).find k =
        (int64Serial df cols data t).find k) ∧
      finalizeInt64 df cols col t (int64Parallel df cols data t w) =
        finalizeInt64 df cols col t (int64Serial df cols data t) := by
  intro df cols col data t w hw
  have h := int64Parallel_serial df cols data t w hw
  exact ⟨h.2, finalizeInt64_congr df cols col t _ _ h⟩


theorem groupRows_append_self (df : DataFrame) (cols : List String) (k : Nat × Nat)
    (l : List Nat) (i : Nat) (h : buildKey128 df cols i = k) :
    groupRows df cols k (l ++ [i]) = groupRows df cols k l ++ [i] := by
  unfold groupRows
  rw [List.filter_append]
  simp [h]

theorem groupRows_append_other (df : DataFrame) (cols : List String) (k : Nat × Nat)
    (l : List Nat) (i : Nat) (h : ¬ buildKey128 df cols i = k) :
    groupRows df cols k (l ++ [i]) = groupRows df cols k l := by
  unfold groupRows
  rw [List.filter_append]
  simp [h]

theorem accum_char (df : DataFrame) (cols : List String) (data : List Int)
    (t : AggregationType) :
    ∀ (l : List Nat) (k : Nat × Nat),
      ((accumInt64 df cols data t .empty l).find k = none →
        groupRows df cols k l = []) ∧
      (∀ st, (accumInt64 df cols data t .empty l).find k = some st →
        groupRows df cols k l ≠ [] ∧
        (groupRows df cols k l).head? = some st.rep ∧
        st.count = wrap64 (groupRows df cols k l).length ∧
        ((t = .Sum ∨ t = .Mean) → st.sum = wrap64 (groupVals df cols data k l).sum) ∧
        (¬ (t = .Sum ∨ t = .Mean) → st.sum = 0) ∧
        st.min ∈ groupVals df cols data k l ∧
        (∀ v ∈ groupVals df cols data k l, st.min ≤ v) ∧
        st.max ∈ groupVals df cols data k l ∧
        (∀ v ∈ groupVals df cols data k l, v ≤ st.max)) := by
  intro l
  induction l using List.reverseRecOn with
  | nil =>
    intro k
    exact ⟨fun _ => rfl, fun st h => by cases h⟩
  | append_singleton l i ih =>
    intro k
    rw [accumInt64_append]
    have hstep : accumInt64 df cols data t (accumInt64 df cols data t .empty l) [i] =
        insInt64 (decide (t = .Sum ∨ t = .Mean)) (buildKey128 df cols i) i
          (data.getD i 0) (accumInt64 df cols data t .empty l) := rfl
    rw [hstep]
    rcases eq_or_ne (buildKey128 df cols i) k with hkey | hkey
    · -- row i belongs to group k
      subst hkey
      rw [groupRows_append_self df cols _ l i rfl]
      constructor
      · intro hnone
        rw [insInt64_find_self] at hnone
        cases hnone
      · intro st hst
        rw [insInt64_find_self] at hst
        injection hst with hst
        rcases hfind : (accumInt64 df cols data t .empty l).find (buildKey128 df cols i)
          with _ | st0
        · -- first member of the group
          have hempty := (ih (buildKey128 df cols i)).1 hfind
          rw [hfind] at hst
          subst hst
          dsimp only
          rw [hempty]
          have hvals : groupVals df cols data (buildKey128 df cols i) (l ++ [i]) =
              [data.getD i 0] := by
            unfold groupVals
            rw [groupRows_append_self df cols _ l i rfl, hempty]
            rfl
          rw [hvals]
          refine ⟨by simp, by simp, by norm_num, ?_, ?_, by simp, ?_, by simp, ?_⟩
          · intro ht
            rw [if_pos (decide_eq_true ht)]
            simp
          · intro ht
            simp [decide_eq_false ht]
          · intro v hv
            simp only [List.mem_singleton] at hv
            subst hv
            simp
          · intro v hv
            simp only [List.mem_singleton] at hv
            subst hv
            simp
        · -- the group already has members
          obtain ⟨hne0, hhead, hcount, hsum, hnosum, hminmem, hminle, hmaxmem, hmaxle⟩ :=
            (ih (buildKey128 df cols i)).2 st0 hfind
          rw [hfind] at hst
          subst hst
          dsimp only
          have hvals : groupVals df cols data (buildKey128 df cols i) (l ++ [i]) =
              groupVals df cols data (buildKey128 df cols i) l ++ [data.getD i 0] := by
            unfold groupVals
            rw [groupRows_append_self df cols _ l i rfl]
            simp
          rw [hvals]
          refine ⟨by simp, ?_, ?_, ?_, ?_, ?_, ?_, ?_, ?_⟩
          · rw [List.head?_append_of_ne_nil _ hne0]
            exact hhead
          · simp only [List.length_append, List.length_cons, List.length_nil]
            rw [hcount, wrap64_add_left]
            congr 1
          · intro ht
            rw [if_pos (decide_eq_true ht), hsum ht, wrap64_add_left, List.sum_append]
            simp
          · intro ht
            simp [decide_eq_false ht, hnosum ht]
          · rcases lt_or_ge (data.getD i 0) st0.min with hlt | hge
            · rw [if_pos hlt]
              simp
            · rw [if_neg (not_lt.mpr hge)]
              exact List.mem_append_left _ hminmem
          · intro v hv
            rcases List.mem_append.mp hv with hv | hv
            · rcases lt_or_ge (data.getD i 0) st0.min with hlt | hge
              · rw [if_pos hlt]
                exact le_trans (le_of_lt hlt) (hminle v hv)
              · rw [if_neg (not_lt.mpr hge)]
                exact hminle v hv
            · simp only [List.mem_singleton] at hv
              subst hv
              rcases lt_or_ge (data.getD i 0) st0.min with hlt | hge
              · rw [if_pos hlt]
              · rw [if_neg (not_lt.mpr hge)]
                exact hge
          · rcases lt_or_ge st0.max (data.getD i 0) with hlt | hge
            · rw [if_pos hlt]
              simp
            · rw [if_neg (not_lt.mpr hge)]
              exact List.mem_append_left _ hmaxmem
          · intro v hv
            rcases List.mem_append.mp hv with hv | hv
            · rcases lt_or_ge st0.max (data.getD i 0) with hlt | hge
              · rw [if_pos hlt]
                exact le_trans (hmaxle v hv) (le_of_lt hlt)
              · rw [if_neg (not_lt.mpr hge)]
                exact hmaxle v hv
            · simp only [List.mem_singleton] at hv
              subst hv
              rcases lt_or_ge st0.max (data.getD i 0) with hlt | hge
              · rw [if_pos hlt]
              · rw [if_neg (not_lt.mpr hge)]
                exact hge
    · -- row i belongs to a different group
      rw [groupRows_append_other df cols k l i hkey]
      have hother := insInt64_find_other (decide (t = .Sum ∨ t = .Mean))
        (buildKey128 df cols i) i (data.getD i 0)
        (accumInt64 df cols data t .empty l) k (fun h => hkey h.symm)
      rw [hother]
      have hvals : groupVals df cols data k (l ++ [i]) = groupVals df cols data k l := by
        unfold groupVals
        rw [groupRows_append_other df cols k l i hkey]
      constructor
      · intro hnone
        exact (ih k).1 hnone
      · intro st hst
        have := (ih k).2 st hst
        simpa [hvals] using this

set_option maxRecDepth 100000 in
/-- C4: for every group, Count is the member count and Min/Max the true
extrema; but Sum is the exact sum only modulo int64 wraparound (`wrap64`),
and Mean is the truncating division of the wrapped sum by the wrapped
count. The concrete scenario of the claim holds. -/
theorem claim_C4 :
    (∀ (df : DataFrame) (cols : List String) (data : List Int)
        (t : AggregationType) (k : Nat × Nat) (st : Int64State),
        (int64Serial df cols data t).find k = some st →
        (t = .Count → finalInt64Value t st =
            wrap64 (groupRows df cols k (List.range data.length)).length) ∧
        (t = .Sum → finalInt64Value t st =
            wrap64 (groupVals df cols data k (List.range data.length)).sum) ∧
        (t = .Mean → finalInt64Value t st =
            goDivInt (wrap64 (groupVals df cols data k (List.range data.length)).sum)
              (wrap64 (groupRows df cols k (List.range data.length)).length)) ∧
        (t = .Min → finalInt64Value t st ∈ groupVals df cols data k (List.range data.length) ∧
            ∀ v ∈ groupVals df cols data k (List.range data.length),
              finalInt64Value t st ≤ v) ∧
        (t = .Max → finalInt64Value t st ∈ groupVals df cols data k (List.range data.length) ∧
            ∀ v ∈ groupVals df cols data k (List.range data.length),
              v ≤ finalInt64Value t st)) ∧
    ((Aggregate 1 ⟨⟨[("g", .ints [1, 1, 2, 2, 2]), ("v", .ints [10, 20, 30, 40, 50])], 5⟩,
        none, ["g"]⟩ "v" .Sum).toOption.map
      (fun p => (p.1.lookup "g", p.1.lookup "v", p.1.length)) =
      some (some (.ints [1, 2]), some (.ints [30, 120]), 2)) ∧
    ((Aggregate 1 ⟨⟨[("g", .ints [1, 1, 2, 2, 2]), ("v", .ints [10, 20, 30, 40, 50])], 5⟩,
        none, ["g"]⟩ "v" .Count).toOption.map
      (fun p => (p.1.lookup "g", p.1.lookup "v", p.1.length)) =
      some (some (.ints [1, 2]), some (.ints [2, 3]), 2)) ∧
    ((Aggregate 1 ⟨⟨[("g", .ints [1, 1, 2, 2, 2]), ("v", .ints [10, 20, 30, 40, 50])], 5⟩,
        none, ["g"]⟩ "v" .Max).toOption.map
      (fun p => (p.1.lookup "g", p.1.lookup "v", p.1.length)) =
      some (some (.ints [1, 2]), some (.ints [20, 50]), 2)) := by
  refine ⟨?_, rfl, rfl, rfl⟩
  intro df cols data t k st hst
  have hst' : (accumInt64 df cols data t .empty (List.range data.length)).find k =
      some st := hst
  obtain ⟨-, -, hcount, hsum, -, hminmem, hminle, hmaxmem, hmaxle⟩ :=
    (accum_char df cols data t (List.range data.length) k).2 st hst'
  refine ⟨?_, ?_, ?_, ?_, ?_⟩
  · intro ht
    subst ht
    simpa [finalInt64Value] using hcount
  · intro ht
    subst ht
    simpa [finalInt64Value] using hsum (Or.inl rfl)
  · intro ht
    subst ht
    simp only [finalInt64Value]
    rw [hsum (Or.inr rfl), hcount]
  · intro ht
    subst ht
    simp only [finalInt64Value]
    exact ⟨hminmem, hminle⟩
  · intro ht
    subst ht
    simp only [finalInt64Value]
    exact ⟨hmaxmem, hmaxle⟩

set_option maxRecDepth 100000 in
theorem claim_C4_witness :
    finalInt64Value .Count (⟨0, 3, 3, 1, 0⟩ : Int64State) =
      wrap64 (groupRows ⟨[("g", ColData.ints [7]), ("v", ColData.ints [3])], 1⟩ ["g"]
        (buildKey128 ⟨[("g", ColData.ints [7]), ("v", ColData.ints [3])], 1⟩ ["g"] 0)
        (List.range 1)).length := by
  exact (claim_C4.1 ⟨[("g", ColData.ints [7]), ("v", ColData.ints [3])], 1⟩ ["g"] [3]
    .Count (buildKey128 ⟨[("g", ColData.ints [7]), ("v", ColData.ints [3])], 1⟩ ["g"] 0)
    ⟨0, 3, 3, 1, 0⟩ (by decide)).1 rfl

set_option maxRecDepth 100000 in
/-- C4 counterexample: Sum over a group of [maxInt64, 1] aggregates to
-9223372036854775808 (int64 wraparound), not the exact sum 2^63. -/
theorem claim_C4_counterexample :
    (Aggregate 1 ⟨⟨[("g", .ints [1, 1]), ("v", .ints [9223372036854775807, 1])], 2⟩,
        none, ["g"]⟩ "v" .Sum).toOption.map (fun p => p.1.lookup "v") =
      some (some (.ints [-9223372036854775808])) ∧
    (9223372036854775807 + 1 : Int) = 9223372036854775808 ∧
    (-9223372036854775808 : Int) ≠ (9223372036854775808 : Int) := by
  exact ⟨rfl, rfl, by decide⟩

set_option maxRecDepth 100000 in
theorem claim_C5_witness :
    finalizeInt64 ⟨[("g", ColData.ints [1, 2]), ("v", ColData.ints [10, 20])], 2⟩
        ["g"] "v" .Sum
        (int64Parallel ⟨[("g", ColData.ints [1, 2]), ("v", ColData.ints [10, 20])], 2⟩
          ["g"] [10, 20] .Sum 2) =
      finalizeInt64 ⟨[("g", ColData.ints [1, 2]), ("v", ColData.ints [10, 20])], 2⟩
        ["g"] "v" .Sum
        (int64Serial ⟨[("g", ColData.ints [1, 2]), ("v", ColData.ints [10, 20])], 2⟩
          ["g"] [10, 20] .Sum) :=
  (claim_C5 ⟨[("g", ColData.ints [1, 2]), ("v", ColData.ints [10, 20])], 2⟩
    ["g"] "v" [10, 20] .Sum 2 (by decide)).2

set_option maxRecDepth 1000000 in
/-- C5 counterexample: on a float64 value column the parallel path and the
serial path disagree. Over one group with values [1.0, +0.0, 2^100,
-2^100] (given as bit patterns), two workers sum (1.0 + 0.0) + (2^100 +
(-2^100)) = 1.0, while the serial pass sums ((1.0 + 0.0) + 2^100) +
(-2^100) = +0.0: IEEE-754 addition is not associative, so the sharded
merge changes the result. -/
theorem claim_C5_counterexample :
    (finalizeFloat64 ⟨[("g", ColData.ints [1, 1, 1, 1]),
        ("v", ColData.floats [1023 * 2 ^ 52, 0, 1123 * 2 ^ 52, 2 ^ 63 + 1123 * 2 ^ 52])], 4⟩
      ["g"] "v" .Sum
      (float64Parallel ⟨[("g", ColData.ints [1, 1, 1, 1]),
          ("v", ColData.floats [1023 * 2 ^ 52, 0, 1123 * 2 ^ 52, 2 ^ 63 + 1123 * 2 ^ 52])], 4⟩
        ["g"] [1023 * 2 ^ 52, 0, 1123 * 2 ^ 52, 2 ^ 63 + 1123 * 2 ^ 52] .Sum 2)).toOption.map
      (fun p => p.1.lookup "v") = some (some (.floats [1023 * 2 ^ 52])) ∧
    (finalizeFloat64 ⟨[("g", ColData.ints [1, 1, 1, 1]),
        ("v", ColData.floats [1023 * 2 ^ 52, 0, 1123 * 2 ^ 52, 2 ^ 63 + 1123 * 2 ^ 52])], 4⟩
      ["g"] "v" .Sum
      (float64Serial ⟨[("g", ColData.ints [1, 1, 1, 1]),
          ("v", ColData.floats [1023 * 2 ^ 52, 0, 1123 * 2 ^ 52, 2 ^ 63 + 1123 * 2 ^ 52])], 4⟩
        ["g"] [1023 * 2 ^ 52, 0, 1123 * 2 ^ 52, 2 ^ 63 + 1123 * 2 ^ 52] .Sum)).toOption.map
      (fun p => p.1.lookup "v") = some (some (.floats [0])) ∧
    ColData.floats [1023 * 2 ^ 52] ≠ ColData.floats [0] := by
  refine ⟨by decide, by decide, by decide⟩

theorem accum_order_extends (df : DataFrame) (cols : List String) (data : List Int)
    (t : AggregationType) :
    ∀ (l : List Nat) (m : StateMap Int64State),
      ∃ t2, (accumInt64 df cols data t m l).order = m.order ++ t2 := by
  intro l
  induction l with
  | nil =>
    intro m
    exact ⟨[], by simp [accumInt64]⟩
  | cons i l ih =>
    intro m
    have hstep : accumInt64 df cols data t m (i :: l) =
        accumInt64 df cols data t
          (insInt64 (decide (t = .Sum ∨ t = .Mean)) (buildKey128 df cols i) i
            (data.getD i 0) m) l := rfl
    rw [hstep]
    obtain ⟨t2, ht2⟩ := ih (insInt64 (decide (t = .Sum ∨ t = .Mean))
      (buildKey128 df cols i) i (data.getD i 0) m)
    rw [ht2]
    have hord : (insInt64 (decide (t = .Sum ∨ t = .Mean)) (buildKey128 df cols i) i
        (data.getD i 0) m).order =
        if (m.find (buildKey128 df cols i)).isSome then m.order
        else m.order ++ [buildKey128 df cols i] := rfl
    rw [hord]
    by_cases hf : (m.find (buildKey128 df cols i)).isSome
    · rw [if_pos hf]
      exact ⟨t2, rfl⟩
    · rw [if_neg hf]
      exact ⟨buildKey128 df cols i :: t2, by simp⟩

theorem int64Serial_order_ne_nil (df : DataFrame) (cols : List String)
    (data : List Int) (t : AggregationType) (h : data ≠ []) :
    (int64Serial df cols data t).order ≠ [] := by
  unfold int64Serial
  obtain ⟨n, hn⟩ : ∃ n, data.length = n + 1 := by
    cases data with
    | nil => exact absurd rfl h
    | cons a l => exact ⟨l.length, by simp⟩
  rw [hn, List.range_succ_eq_map]
  have hstep : accumInt64 df cols data t .empty (0 :: (List.range n).map (· + 1)) =
      accumInt64 df cols data t
        (insInt64 (decide (t = .Sum ∨ t = .Mean)) (buildKey128 df cols 0) 0
          (data.getD 0 0) .empty) ((List.range n).map (· + 1)) := rfl
  rw [hstep]
  obtain ⟨t2, ht2⟩ := accum_order_extends df cols data t ((List.range n).map (· + 1))
    (insInt64 (decide (t = .Sum ∨ t = .Mean)) (buildKey128 df cols 0) 0
      (data.getD 0 0) .empty)
  rw [ht2]
  have hord : (insInt64 (decide (t = .Sum ∨ t = .Mean)) (buildKey128 df cols 0) 0
      (data.getD 0 0) (StateMap.empty : StateMap Int64State)).order =
      [buildKey128 df cols 0] := rfl
  rw [hord]
  simp

theorem New_ok_series (x : List (String × ColData)) (d : DataFrame)
    (hx : x ≠ []) (h : New x = .ok d) : d.series = x := by
  cases x with
  | nil => exact absurd rfl hx
  | cons hd tl =>
    obtain ⟨nm, c0⟩ := hd
    simp only [New] at h
    by_cases hc : ((nm, c0) :: tl).all (fun p => p.2.length == c0.length)
    · rw [if_pos hc] at h
      cases h
      rfl
    · rw [if_neg hc] at h
      cases h

theorem assocInsert_ne_nil (m : List (String × ColData)) (k : String) (v : ColData) :
    assocInsert m k v ≠ [] := by
  unfold assocInsert
  by_cases hany : m.any (fun p => p.1 == k)
  · rw [if_pos hany]
    cases m with
    | nil => cases hany
    | cons hd tl => simp
  · rw [if_neg hany]
    simp

theorem assocInsert_find (m : List (String × ColData)) (k : String) (v : ColData) :
    (assocInsert m k v).find? (fun p => p.1 == k) = some (k, v) := by
  induction m with
  | nil => simp [assocInsert]
  | cons hd tl ih =>
    by_cases hhd : hd.1 = k
    · have hany : (hd :: tl).any (fun p => p.1 == k) = true := by
        simp [List.any_cons, hhd]
      unfold assocInsert
      rw [hany, if_pos rfl, List.map_cons]
      have hf : (if (hd.1 == k) = true then (k, v) else hd) = (k, v) := by
        simp [hhd]
      rw [hf]
      simp [List.find?]
    · by_cases htl : tl.any (fun p => p.1 == k)
      · have hany : (hd :: tl).any (fun p => p.1 == k) = true := by
          simp [List.any_cons, htl]
        have htl2 : assocInsert tl k v = tl.map
            (fun p => if p.1 == k then (k, v) else p) := by
          unfold assocInsert
          rw [if_pos htl]
        unfold assocInsert
        rw [hany, if_pos rfl, List.map_cons]
        have hf : (if (hd.1 == k) = true then (k, v) else hd) = hd := by
          simp [hhd]
        rw [hf]
        rw [List.find?_cons_of_neg _ (by simp [hhd])]
        rw [← htl2]
        exact ih
      · have htlf : tl.any (fun p => p.1 == k) = false := by
          rwa [Bool.eq_false_iff]
        have hany : (hd :: tl).any (fun p => p.1 == k) = false := by
          simp only [List.any_cons, htlf, Bool.or_false]
          simp [hhd]
        have htl2 : assocInsert tl k v = tl ++ [(k, v)] := by
          unfold assocInsert
          rw [if_neg (by simp [htl])]
        unfold assocInsert
        rw [hany]
        rw [if_neg (by simp)]
        rw [List.cons_append, List.find?_cons_of_neg _ (by simp [hhd])]
        rw [← htl2]
        exact ih

/-- C9: `Aggregate` mutates the group handle. After a first `Aggregate` on
a handle fresh from `GroupBy` (nil groups map, int64 value column,
nonempty data), the returned handle's groups map holds exactly one
representative row index per distinct group key; a second `Aggregate` on
that handle therefore dispatches to the precomputed-indices legacy path
and aggregates only the single representative per group — `Count`
returns 1 for every group regardless of the group's true size. -/
theorem claim_C9 :
    ∀ (df : DataFrame) (cols : List String) (col : String) (data : List Int)
      (t : AggregationType) (w : Nat) (df1 : DataFrame) (gdf1 : GroupedDataFrame),
      df.lookup col = some (.ints data) →
      data ≠ [] →
      Aggregate w ⟨df, none, cols⟩ col t = .ok (df1, gdf1) →
      ∃ G, gdf1.groups = some G ∧ G ≠ [] ∧
        (G.map Prod.fst).Nodup ∧
        (∀ p ∈ G, ∃ r, p.2 = [r]) ∧
        (∀ (col2 : String) (s2 : ColData), gdf1.df.lookup col2 = some s2 →
          Aggregate w gdf1 col2 .Count = aggregateLegacy gdf1 col2 s2 .Count) ∧
        (∀ (col2 : String) (data2 : List Int) (df2 : DataFrame) (gdf2 : GroupedDataFrame),
          gdf1.df.lookup col2 = some (.ints data2) →
          Aggregate w gdf1 col2 .Count = .ok (df2, gdf2) →
          df2.lookup col2 = some (.ints (List.replicate G.length 1))) := by
  intro df cols col data t w df1 gdf1 hlook hdata h
  unfold Aggregate at h
  dsimp only at h
  rw [hlook] at h
  unfold aggregateStreaming at h
  dsimp only at h
  obtain ⟨p, hp, hpe⟩ := except_map_ok h
  have hpe' : (df1, gdf1) = (p.1, (⟨df, some p.2, cols⟩ : GroupedDataFrame)) := hpe
  have hgdf1 : gdf1 = ⟨df, some p.2, cols⟩ := by
    injection hpe' with h1 h2
  unfold finalizeInt64 at hp
  dsimp only at hp
  obtain ⟨d, -, hd⟩ := except_map_ok hp
  have hp2 : p.2 =
      (if data.length ≥ 50000 ∧ max w 1 > 1 then
          int64Parallel df cols data t (max w 1)
        else int64Serial df cols data t).order.map
      (fun k => (k, [repInt64 (if data.length ≥ 50000 ∧ max w 1 > 1 then
          int64Parallel df cols data t (max w 1)
        else int64Serial df cols data t) k])) := by
    rw [hd]
  have hMeq : SMEq (if data.length ≥ 50000 ∧ max w 1 > 1 then
      int64Parallel df cols data t (max w 1)
    else int64Serial df cols data t) (int64Serial df cols data t) := by
    by_cases hc : data.length ≥ 50000 ∧ max w 1 > 1
    · rw [if_pos hc]
      exact int64Parallel_serial df cols data t (max w 1) (le_max_right w 1)
    · rw [if_neg hc]
      exact SMEq.refl _
  have hordeq := hMeq.1
  have hserialWF : SMWF (int64Serial df cols data t) :=
    SMWF_accum df cols data t (List.range data.length) .empty SMWF_empty
  have hordne : (int64Serial df cols data t).order ≠ [] :=
    int64Serial_order_ne_nil df cols data t hdata
  have hne2 : p.2 ≠ [] := by
    rw [hp2, hordeq]
    simp only [ne_eq, List.map_eq_nil_iff]
    exact hordne
  have hempty : p.2.isEmpty = false := by
    obtain ⟨q, qs, hq⟩ := List.exists_cons_of_ne_nil hne2
    rw [hq]
    rfl
  have hsing : ∀ q ∈ p.2, ∃ r, (q : (Nat × Nat) × List Nat).2 = [r] := by
    intro q hq
    rw [hp2] at hq
    obtain ⟨k, hk, rfl⟩ := List.mem_map.mp hq
    exact ⟨_, rfl⟩
  refine ⟨p.2, by rw [hgdf1], hne2, ?_, hsing, ?_, ?_⟩
  · rw [hp2]
    have hmm : (((if data.length ≥ 50000 ∧ max w 1 > 1 then
        int64Parallel df cols data t (max w 1)
      else int64Serial df cols data t).order.map
        (fun k => (k, [repInt64 (if data.length ≥ 50000 ∧ max w 1 > 1 then
          int64Parallel df cols data t (max w 1)
        else int64Serial df cols data t) k]))).map Prod.fst) =
        (int64Serial df cols data t).order := by
      rw [List.map_map, ← hordeq]
      simp [Function.comp_def]
    rw [hmm]
    exact hserialWF.1
  · intro col2 s2 hl
    rw [hgdf1] at hl ⊢
    dsimp only at hl
    unfold Aggregate
    dsimp only
    rw [hl, hempty]
    rfl
  · intro col2 data2 df2 gdf2 hl hagg
    rw [hgdf1] at hl hagg
    dsimp only at hl
    unfold Aggregate at hagg
    dsimp only at hagg
    rw [hl, hempty] at hagg
    have hagg2 : aggregateLegacy ⟨df, some p.2, cols⟩ col2 (.ints data2) .Count =
        .ok (df2, gdf2) := hagg
    unfold aggregateLegacy at hagg2
    dsimp only at hagg2
    obtain ⟨d2, hNew2, hd2⟩ := except_map_ok hagg2
    have hd2' : (df2, gdf2) = (d2, (⟨df, some p.2, cols⟩ : GroupedDataFrame)) := hd2
    have hdf2 : df2 = d2 := by
      injection hd2' with h1 h2
  
    have hvals : p.2.map (fun q => Int.ofNat q.2.length) = List.replicate p.2.length 1 := by
      have hmem : ∀ b ∈ p.2.map (fun q => Int.ofNat q.2.length), b = 1 := by
        intro b hb
        obtain ⟨q, hq, rfl⟩ := List.mem_map.mp hb
        obtain ⟨r, hr⟩ := hsing q hq
        rw [hr]
        rfl
      have h2 := List.eq_replicate_of_mem hmem
      simpa using h2
    have hser := New_ok_series _ d2 (assocInsert_ne_nil _ _ _) hNew2
    rw [hdf2]
    unfold DataFrame.lookup
    rw [hser, assocInsert_find]
    simp only [Option.getD_some]
    rw [hvals]
    rfl

set_option maxRecDepth 1000000 in
theorem claim_C9_witness :
    Aggregate 1 ⟨⟨[("g", ColData.ints [1, 1]), ("v", ColData.ints [5, 7])], 2⟩,
        some [((11468921228449061269, 0), [0])], ["g"]⟩ "v" .Count =
      .ok (⟨[("g", ColData.ints [1]), ("v", ColData.ints [1])], 1⟩,
        ⟨⟨[("g", ColData.ints [1, 1]), ("v", ColData.ints [5, 7])], 2⟩,
          some [((11468921228449061269, 0), [0])], ["g"]⟩) ∧
    DataFrame.lookup ⟨[("g", ColData.ints [1]), ("v", ColData.ints [1])], 1⟩ "v" =
      some (ColData.ints [1]) := by
  obtain ⟨G, hG, hne, hnd, hsing, hdisp, hcnt⟩ :=
    claim_C9 ⟨[("g", ColData.ints [1, 1]), ("v", ColData.ints [5, 7])], 2⟩ ["g"] "v"
      [5, 7] .Sum 1 ⟨[("g", ColData.ints [1]), ("v", ColData.ints [12])], 1⟩
      ⟨⟨[("g", ColData.ints [1, 1]), ("v", ColData.ints [5, 7])], 2⟩,
        some [((11468921228449061269, 0), [0])], ["g"]⟩ rfl (by decide) rfl
  have hGe : G = [((11468921228449061269, 0), [0])] := by
    simpa using hG.symm
  have h2 := hcnt "v" [5, 7] ⟨[("g", ColData.ints [1]), ("v", ColData.ints [1])], 1⟩
    ⟨⟨[("g", ColData.ints [1, 1]), ("v", ColData.ints [5, 7])], 2⟩,
      some [((11468921228449061269, 0), [0])], ["g"]⟩ rfl rfl
  rw [hGe] at h2
  refine ⟨rfl, ?_⟩
  simpa using h2

theorem segOf_nil (f : Nat → Nat) (b : Nat) : segOf f [] b = [] := rfl

theorem segOf_append (f : Nat → Nat) (l1 l2 : List Nat) (b : Nat) :
    segOf f (l1 ++ l2) b = segOf f l1 b ++ segOf f l2 b := by
  unfold segOf
  rw [List.filter_append]

theorem segOf_append_self (f : Nat → Nat) (l : List Nat) (i b : Nat)
    (h : f i = b) : segOf f (l ++ [i]) b = segOf f l b ++ [i] := by
  rw [segOf_append]
  unfold segOf
  simp [h]

theorem segOf_append_other (f : Nat → Nat) (l : List Nat) (i b : Nat)
    (h : ¬ f i = b) : segOf f (l ++ [i]) b = segOf f l b := by
  rw [segOf_append]
  unfold segOf
  simp [h]

theorem upd_self {α : Type} (g : Nat → α) (k : Nat) (v : α) : upd g k v k = v := by
  simp [upd]

theorem upd_other {α : Type} (g : Nat → α) (k : Nat) (v : α) (x : Nat)
    (h : x ≠ k) : upd g k v x = g x := by
  simp [upd, h]

theorem histo_spec (f : Nat → Nat) :
    ∀ (l : List Nat) (init : Nat → Nat) (b : Nat),
      histo f l init b = init b + (segOf f l b).length := by
  intro l
  induction l with
  | nil => intro init b; simp [histo, segOf]
  | cons i l ih =>
    intro init b
    have hstep : histo f (i :: l) init = histo f l (upd init (f i) (init (f i) + 1)) := rfl
    rw [hstep, ih]
    by_cases hb : f i = b
    · rw [hb, upd_self]
      have : segOf f (i :: l) b = i :: segOf f l b := by
        unfold segOf
        simp [hb]
      rw [this]
      simp
      omega
    · rw [upd_other _ _ _ _ (fun hc => hb hc.symm)]
      have : segOf f (i :: l) b = segOf f l b := by
        unfold segOf
        simp [hb]
      rw [this]

theorem scanAsc_spec : ∀ (B : Nat) (c : Nat → Nat),
    (∀ b, (scanAsc c B).1 b =
      if b < B then ((List.range b).map c).sum else c b) ∧
    (scanAsc c B).2 = ((List.range B).map c).sum := by
  intro B
  induction B with
  | zero =>
    intro c
    constructor
    · intro b
      rw [if_neg (Nat.not_lt_zero b)]
      rfl
    · rfl
  | succ B ih =>
    intro c
    have hstep : scanAsc c (B + 1) =
        (upd (scanAsc c B).1 B (scanAsc c B).2, (scanAsc c B).2 + (scanAsc c B).1 B) := by
      unfold scanAsc
      rw [List.range_succ, List.foldl_append]
      rfl
    obtain ⟨ih1, ih2⟩ := ih c
    constructor
    · intro b
      rw [hstep]
      dsimp only
      by_cases hb : b = B
      · subst hb
        rw [upd_self, if_pos (Nat.lt_succ_self b)]
        exact ih2
      · rw [upd_other _ _ _ _ hb, ih1 b]
        by_cases hlt : b < B
        · rw [if_pos hlt, if_pos (Nat.lt_succ_of_lt hlt)]
        · rw [if_neg hlt, if_neg (by omega)]
    · rw [hstep]
      dsimp only
      rw [ih2, ih1 B, if_neg (lt_irrefl B), List.range_succ, List.map_append,
        List.sum_append]
      simp

theorem descAux : ∀ (B : Nat) (c : Nat → Nat) (s0 : Nat),
    (∀ b, ((List.range B).reverse.foldl
        (fun st i => (upd st.1 i st.2, st.2 + st.1 i)) (c, s0)).1 b =
      if b < B then s0 + ((List.range' (b + 1) (B - (b + 1))).map c).sum else c b) ∧
    ((List.range B).reverse.foldl
        (fun st i => (upd st.1 i st.2, st.2 + st.1 i)) (c, s0)).2 =
      s0 + ((List.range B).map c).sum := by
  intro B
  induction B with
  | zero =>
    intro c s0
    constructor
    · intro b
      rw [if_neg (Nat.not_lt_zero b)]
      rfl
    · simp
  | succ B ih =>
    intro c s0
    have hrev : (List.range (B + 1)).reverse = B :: (List.range B).reverse := by
      rw [List.range_succ, List.reverse_append]
      rfl
    have hstep : (List.range (B + 1)).reverse.foldl
        (fun st i => (upd st.1 i st.2, st.2 + st.1 i)) (c, s0) =
        (List.range B).reverse.foldl
          (fun st i => (upd st.1 i st.2, st.2 + st.1 i)) (upd c B s0, s0 + c B) := by
      rw [hrev]
      rfl
    obtain ⟨ih1, ih2⟩ := ih (upd c B s0) (s0 + c B)
    have hcongr : ∀ (lo len : Nat), lo + len ≤ B →
        (List.range' lo len).map (upd c B s0) = (List.range' lo len).map c := by
      intro lo len hle
      apply List.map_congr_left
      intro x hx
      have hx2 := List.mem_range'_1.mp hx
      exact upd_other _ _ _ _ (by omega)
    constructor
    · intro b
      rw [hstep, ih1 b]
      by_cases hlt : b < B
      · rw [if_pos hlt, if_pos (Nat.lt_succ_of_lt hlt)]
        rw [hcongr (b + 1) (B - (b + 1)) (by omega)]
        have hsplit : List.range' (b + 1) (B + 1 - (b + 1)) =
            List.range' (b + 1) (B - (b + 1)) ++ [B] := by
          have h1 : B + 1 - (b + 1) = (B - (b + 1)) + 1 := by omega
          rw [h1, List.range'_concat]
          have h2 : b + 1 + 1 * (B - (b + 1)) = B := by omega
          rw [h2]
        rw [hsplit, List.map_append, List.sum_append]
        simp
        omega
      · by_cases hb : b = B
        · subst hb
          rw [if_neg hlt, upd_self, if_pos (Nat.lt_succ_self b)]
          have : b + 1 - (b + 1) = 0 := by omega
          rw [this]
          simp
        · rw [if_neg hlt, upd_other _ _ _ _ hb, if_neg (by omega)]
    · rw [hstep, ih2]
      have h0 : (0 : Nat) + B ≤ B := by omega
      rw [show (List.range B).map (upd c B s0) = (List.range B).map c from by
        rw [List.range_eq_range']
        exact hcongr 0 B h0]
      rw [List.range_succ, List.map_append, List.sum_append]
      simp
      omega

theorem scanDesc_spec (B : Nat) (c : Nat → Nat) :
    (∀ b, (scanDesc c B).1 b =
      if b < B then ((List.range' (b + 1) (B - (b + 1))).map c).sum else c b) ∧
    (scanDesc c B).2 = ((List.range B).map c).sum := by
  have h := descAux B c 0
  unfold scanDesc
  constructor
  · intro b
    rw [h.1 b]
    by_cases hlt : b < B
    · rw [if_pos hlt, if_pos hlt, Nat.zero_add]
    · rw [if_neg hlt, if_neg hlt]
  · rw [h.2, Nat.zero_add]

theorem scatter_counts (f : Nat → Nat) :
    ∀ (l : List Nat) (st : (Nat → Nat) × (Nat → Nat)) (b : Nat),
      (scatterFold f l st).1 b = st.1 b + (segOf f l b).length := by
  intro l
  induction l with
  | nil => intro st b; simp [scatterFold, segOf]
  | cons i l ih =>
    intro st b
    have hstep : scatterFold f (i :: l) st =
        scatterFold f l
          (upd st.1 (f i) (st.1 (f i) + 1), upd st.2 (st.1 (f i)) i) := rfl
    rw [hstep, ih]
    dsimp only
    by_cases hb : f i = b
    · rw [hb, upd_self]
      have : segOf f (i :: l) b = i :: segOf f l b := by
        unfold segOf
        simp [hb]
      rw [this]
      simp
      omega
    · rw [upd_other _ _ _ _ (fun hc => hb hc.symm)]
      have : segOf f (i :: l) b = segOf f l b := by
        unfold segOf
        simp [hb]
      rw [this]

theorem scatter_inv (f : Nat → Nat) (ind : List Nat) (off0 t0 : Nat → Nat)
    (Hdisj : ∀ b1 b2, b1 ≠ b2 → ∀ k1, k1 < (segOf f ind b1).length →
      ∀ k2, k2 < (segOf f ind b2).length → off0 b1 + k1 ≠ off0 b2 + k2) :
    ∀ l rest, ind = l ++ rest →
      ∀ b k, k < (segOf f l b).length →
        (scatterFold f l (off0, t0)).2 (off0 b + k) = (segOf f l b).getD k 0 := by
  intro l
  induction l using List.reverseRecOn with
  | nil =>
    intro rest h b k hk
    simp [segOf] at hk
  | append_singleton l i ihl =>
    intro rest hind b k hk
    have hind' : ind = l ++ (i :: rest) := by simpa using hind
    have hlen : ∀ b', (segOf f ind b').length =
        (segOf f l b').length + (segOf f (i :: rest) b').length := by
      intro b'
      rw [hind', segOf_append]
      simp
    have hheadseg : segOf f (i :: rest) (f i) = i :: segOf f rest (f i) := by
      unfold segOf
      simp
    have hstep : scatterFold f (l ++ [i]) (off0, t0) =
        (upd (scatterFold f l (off0, t0)).1 (f i)
           ((scatterFold f l (off0, t0)).1 (f i) + 1),
         upd (scatterFold f l (off0, t0)).2 ((scatterFold f l (off0, t0)).1 (f i)) i) := by
      unfold scatterFold
      rw [List.foldl_append]
      rfl
    have hW : (scatterFold f l (off0, t0)).1 (f i) =
        off0 (f i) + (segOf f l (f i)).length := scatter_counts f l (off0, t0) (f i)
    rw [hstep]
    dsimp only
    by_cases hb : b = f i
    · subst hb
      rw [segOf_append_self f l i (f i) rfl] at hk ⊢
      by_cases hke : k = (segOf f l (f i)).length
      · subst hke
        rw [hW, upd_self]
        rw [List.getD_append_right _ _ _ _ (le_refl _)]
        simp
      · have hklt : k < (segOf f l (f i)).length := by
          simp at hk
          omega
        rw [hW, upd_other _ _ _ _ (by omega)]
        rw [List.getD_append _ _ _ _ hklt]
        exact ihl (i :: rest) hind' (f i) k hklt
    · have hfi : ¬ f i = b := fun hc => hb hc.symm
      rw [segOf_append_other f l i b hfi] at hk ⊢
      have hne : off0 b + k ≠ off0 (f i) + (segOf f l (f i)).length := by
        apply Hdisj b (f i) hb k
        · rw [hlen b]
          omega
        · rw [hlen (f i), hheadseg]
          simp
      rw [hW, upd_other _ _ _ _ hne]
      exact ihl (i :: rest) hind' b k hk

theorem map_range'_eq : ∀ (xs : List Nat) (g : Nat → Nat) (s : Nat),
    (∀ k, k < xs.length → g (s + k) = xs.getD k 0) →
    (List.range' s xs.length).map g = xs := by
  intro xs
  induction xs with
  | nil => intro g s _; rfl
  | cons x xs ih =>
    intro g s H
    have h0 : g s = x := by
      have := H 0 (by simp)
      simpa using this
    have hr : List.range' s (xs.length + 1) = s :: List.range' (s + 1) xs.length := rfl
    show (List.range' s (xs.length + 1)).map g = x :: xs
    rw [hr, List.map_cons, h0]
    congr 1
    apply ih
    intro k hk
    have := H (k + 1) (by simpa using Nat.succ_lt_succ hk)
    rw [show s + 1 + k = s + (k + 1) by omega]
    simpa using this

theorem readout (st2 : Nat → Nat) (segs : Nat → List Nat) (off0 : Nat → Nat)
    (Hst : ∀ b k, k < (segs b).length → st2 (off0 b + k) = (segs b).getD k 0) :
    ∀ (order : List Nat) (base : Nat), offChain segs off0 base order →
      (List.range' base ((order.map (fun b => (segs b).length)).sum)).map st2 =
        order.flatMap segs := by
  intro order
  induction order with
  | nil => intro base _; rfl
  | cons b rest ih =>
    intro base hchain
    obtain ⟨hb, hrest⟩ := hchain
    have hsum : ((b :: rest).map (fun b => (segs b).length)).sum =
        (segs b).length + ((rest.map (fun b => (segs b).length)).sum) := by
      simp
    rw [hsum]
    have hsplit : List.range' base ((segs b).length + (rest.map (fun b => (segs b).length)).sum) =
        List.range' base (segs b).length ++
          List.range' (base + (segs b).length) ((rest.map (fun b => (segs b).length)).sum) := by
      have := List.range'_append base (segs b).length
        ((rest.map (fun b => (segs b).length)).sum) 1
      simp only [Nat.one_mul] at this
      rw [Nat.add_comm ((segs b).length) ((rest.map (fun b => (segs b).length)).sum)]
      exact this.symm
    rw [hsplit, List.map_append]
    have hfirst : (List.range' base (segs b).length).map st2 = segs b := by
      apply map_range'_eq
      intro k hk
      rw [← hb]
      exact Hst b k hk
    rw [hfirst]
    have hrest2 := ih (base + (segs b).length) hrest
    rw [hrest2]
    rfl

theorem indicator_sum : ∀ (B x : Nat),
    ((List.range B).map (fun b => if x = b then 1 else 0)).sum =
      if x < B then 1 else 0 := by
  intro B x
  induction B with
  | zero => simp
  | succ B ih =>
    rw [List.range_succ, List.map_append, List.sum_append, ih]
    simp only [List.map_cons, List.map_nil, List.sum_cons, List.sum_nil]
    by_cases h1 : x < B
    · rw [if_pos h1, if_neg (by omega), if_pos (by omega)]
      omega
    · by_cases h2 : x = B
      · rw [if_neg h1, if_pos h2, if_pos (by omega)]
        omega
      · rw [if_neg h1, if_neg h2, if_neg (by omega)]
        omega

theorem sum_map_add : ∀ (l : List Nat) (g h : Nat → Nat),
    (l.map (fun x => g x + h x)).sum = (l.map g).sum + (l.map h).sum := by
  intro l g h
  induction l with
  | nil => rfl
  | cons a l ih =>
    simp only [List.map_cons, List.sum_cons, ih]
    omega

theorem seg_total (f : Nat → Nat) :
    ∀ (l : List Nat) (B : Nat), (∀ i ∈ l, f i < B) →
      ((List.range B).map (fun b => (segOf f l b).length)).sum = l.length := by
  intro l
  induction l with
  | nil =>
    intro B _
    simp [segOf]
  | cons i l ih =>
    intro B hB
    have hmap : (List.range B).map (fun b => (segOf f (i :: l) b).length) =
        (List.range B).map (fun b => (segOf f l b).length + if f i = b then 1 else 0) := by
      apply List.map_congr_left
      intro b _
      by_cases hb : f i = b
      · rw [if_pos hb]
        have : segOf f (i :: l) b = i :: segOf f l b := by
          unfold segOf
          simp [hb]
        rw [this]
        simp
      · rw [if_neg hb]
        have : segOf f (i :: l) b = segOf f l b := by
          unfold segOf
          simp [hb]
        rw [this]
        simp
    rw [hmap, sum_map_add, ih B (fun j hj => hB j (List.mem_cons_of_mem i hj)),
      indicator_sum, if_pos (hB i (List.mem_cons_self i l))]
    simp

theorem segOf_eq_nil_of_ge (f : Nat → Nat) (l : List Nat) (B b : Nat)
    (hf : ∀ i ∈ l, f i < B) (hb : B ≤ b) : segOf f l b = [] := by
  unfold segOf
  rw [List.filter_eq_nil_iff]
  intro i hi
  have := hf i hi
  simp
  omega

theorem radixDigit_lt (keys : List Nat) (shift i : Nat) :
    radixDigit keys shift i < 256 := by
  unfold radixDigit
  exact Nat.mod_lt _ (by norm_num)

theorem sum_range_prefix_le (len : Nat → Nat) (a b : Nat) (h : a ≤ b) :
    ((List.range a).map len).sum ≤ ((List.range b).map len).sum := by
  have hsplit : List.range b = List.range a ++ List.range' a (b - a) := by
    rw [List.range_eq_range', List.range_eq_range']
    have h2 : b - a + a = b := by omega
    have := List.range'_append 0 a (b - a) 1
    simp only [Nat.one_mul, Nat.zero_add] at this
    rw [h2] at this
    exact this.symm
  rw [hsplit, List.map_append, List.sum_append]
  omega

theorem asc_disjoint (len : Nat → Nat) (hlen : ∀ b, 256 ≤ b → len b = 0) :
    ∀ b1 b2, b1 ≠ b2 → ∀ k1, k1 < len b1 → ∀ k2, k2 < len b2 →
      (scanAsc len 256).1 b1 + k1 ≠ (scanAsc len 256).1 b2 + k2 := by
  have hspec := (scanAsc_spec 256 len).1
  have hord : ∀ ba bb, ba < bb → bb < 256 →
      (scanAsc len 256).1 ba + len ba ≤ (scanAsc len 256).1 bb := by
    intro ba bb hab hbb
    rw [hspec ba, hspec bb, if_pos (lt_trans hab hbb), if_pos hbb]
    have h1 : ((List.range (ba + 1)).map len).sum =
        ((List.range ba).map len).sum + len ba := by
      rw [List.range_succ, List.map_append, List.sum_append]
      simp
    have h2 := sum_range_prefix_le len (ba + 1) bb (by omega)
    omega
  intro b1 b2 hne k1 hk1 k2 hk2
  have hb1 : b1 < 256 := by
    by_contra hc
    push_neg at hc
    have := hlen b1 hc
    omega
  have hb2 : b2 < 256 := by
    by_contra hc
    push_neg at hc
    have := hlen b2 hc
    omega
  rcases lt_or_gt_of_ne hne with h | h
  · have := hord b1 b2 h hb2
    omega
  · have := hord b2 b1 h hb1
    omega

theorem desc_disjoint (len : Nat → Nat) (hlen : ∀ b, 256 ≤ b → len b = 0) :
    ∀ b1 b2, b1 ≠ b2 → ∀ k1, k1 < len b1 → ∀ k2, k2 < len b2 →
      (scanDesc len 256).1 b1 + k1 ≠ (scanDesc len 256).1 b2 + k2 := by
  have hspec := (scanDesc_spec 256 len).1
  have hord : ∀ ba bb, ba < bb → bb < 256 →
      (scanDesc len 256).1 bb + len bb ≤ (scanDesc len 256).1 ba := by
    intro ba bb hab hbb
    rw [hspec ba, hspec bb, if_pos (lt_trans hab hbb), if_pos hbb]
    have hone : List.range' bb (256 - bb) = bb :: List.range' (bb + 1) (256 - (bb + 1)) := by
      have h1 : 256 - bb = (256 - (bb + 1)) + 1 := by omega
      rw [h1]
      rfl
    have hsum1 : ((List.range' bb (256 - bb)).map len).sum =
        len bb + ((List.range' (bb + 1) (256 - (bb + 1))).map len).sum := by
      rw [hone]
      simp
    have hsplit : List.range' (ba + 1) (256 - (ba + 1)) =
        List.range' (ba + 1) (bb - (ba + 1)) ++ List.range' bb (256 - bb) := by
      have := List.range'_append (ba + 1) (bb - (ba + 1)) (256 - bb) 1
      simp only [Nat.one_mul] at this
      have h2 : ba + 1 + (bb - (ba + 1)) = bb := by omega
      have h3 : 256 - bb + (bb - (ba + 1)) = 256 - (ba + 1) := by omega
      rw [h2, h3] at this
      exact this.symm
    rw [hsplit, List.map_append, List.sum_append]
    omega
  intro b1 b2 hne k1 hk1 k2 hk2
  have hb1 : b1 < 256 := by
    by_contra hc
    push_neg at hc
    have := hlen b1 hc
    omega
  have hb2 : b2 < 256 := by
    by_contra hc
    push_neg at hc
    have := hlen b2 hc
    omega
  rcases lt_or_gt_of_ne hne with h | h
  · have := hord b1 b2 h hb2
    omega
  · have := hord b2 b1 h hb1
    omega

theorem chain_range' (segs : Nat → List Nat) (off0 : Nat → Nat) :
    ∀ (cnt lo base : Nat),
      (∀ j, j < cnt → off0 (lo + j) =
        base + ((List.range j).map (fun j2 => (segs (lo + j2)).length)).sum) →
      offChain segs off0 base (List.range' lo cnt) := by
  intro cnt
  induction cnt with
  | zero =>
    intro lo base _
    exact trivial
  | succ cnt ih =>
    intro lo base H
    show offChain segs off0 base (lo :: List.range' (lo + 1) cnt)
    refine ⟨?_, ?_⟩
    · have := H 0 (by omega)
      simpa using this
    · apply ih (lo + 1) (base + (segs lo).length)
      intro j hj
      have hH := H (j + 1) (by omega)
      have hidx : lo + 1 + j = lo + (j + 1) := by omega
      rw [hidx, hH, List.range_succ_eq_map]
      simp only [List.map_cons, List.sum_cons, List.map_map, Nat.add_zero]
      have hcomp : (List.range j).map ((fun j2 => (segs (lo + j2)).length) ∘ (· + 1)) =
          (List.range j).map (fun j2 => (segs (lo + 1 + j2)).length) := by
        apply List.map_congr_left
        intro x _
        simp only [Function.comp]
        have : lo + (x + 1) = lo + 1 + x := by omega
        rw [this]
      rw [hcomp]
      omega

theorem chain_range'_rev (segs : Nat → List Nat) (off0 : Nat → Nat) :
    ∀ (cnt lo base : Nat),
      (∀ j, j < cnt → off0 (lo + j) =
        base + ((List.range' (j + 1) (cnt - (j + 1))).map
          (fun j2 => (segs (lo + j2)).length)).sum) →
      offChain segs off0 base ((List.range' lo cnt).reverse) := by
  intro cnt
  induction cnt with
  | zero =>
    intro lo base _
    exact trivial
  | succ cnt ih =>
    intro lo base H
    have hconcat : List.range' lo (cnt + 1) = List.range' lo cnt ++ [lo + cnt] := by
      have := @List.range'_concat 1 lo cnt
      simpa using this
    rw [hconcat, List.reverse_append]
    show offChain segs off0 base ((lo + cnt) :: (List.range' lo cnt).reverse)
    refine ⟨?_, ?_⟩
    · have := H cnt (by omega)
      have h0 : cnt + 1 - (cnt + 1) = 0 := by omega
      rw [h0] at this
      simpa using this
    · apply ih lo (base + (segs (lo + cnt)).length)
      intro j hj
      have hH := H j (by omega)
      have h1 : cnt + 1 - (j + 1) = (cnt - (j + 1)) + 1 := by omega
      rw [h1] at hH
      have hsplit : List.range' (j + 1) ((cnt - (j + 1)) + 1) =
          List.range' (j + 1) (cnt - (j + 1)) ++ [cnt] := by
        have := @List.range'_concat 1 (j + 1) (cnt - (j + 1))
        simp only [Nat.one_mul] at this
        have h2 : j + 1 + (cnt - (j + 1)) = cnt := by omega
        rw [h2] at this
        exact this
      rw [hsplit, List.map_append, List.sum_append] at hH
      simp only [List.map_cons, List.map_nil, List.sum_cons, List.sum_nil] at hH
      rw [hH]
      omega

theorem radixPass_flat (keys : List Nat) (ascending : Bool) (shift : Nat)
    (ind : List Nat) :
    radixPassGo keys ascending shift ind =
      (if ascending then List.range 256 else (List.range 256).reverse).flatMap
        (segOf (radixDigit keys shift) ind) := by
  unfold radixPassGo
  dsimp only
  have hflt : ∀ i, radixDigit keys shift i < 256 := radixDigit_lt keys shift
  generalize hf : radixDigit keys shift = f
  rw [hf] at hflt
  have hlen0 : ∀ b, 256 ≤ b → (segOf f ind b).length = 0 := by
    intro b hb
    rw [segOf_eq_nil_of_ge f ind 256 b (fun i _ => hflt i) hb]
    rfl
  have hcounts : histo f ind (fun _ => 0) = fun b => (segOf f ind b).length := by
    funext b
    rw [histo_spec]
    simp
  rw [hcounts]
  have htotal : ((List.range 256).map (fun b => (segOf f ind b).length)).sum =
      ind.length := seg_total f ind 256 (fun i _ => hflt i)
  have hpre : ind = ind ++ [] := (List.append_nil ind).symm
  cases ascending with
  | true =>
    rw [if_pos rfl, if_pos rfl]
    have Hst := scatter_inv f ind ((scanAsc (fun b => (segOf f ind b).length) 256).1)
      (fun _ => 0) (asc_disjoint (fun b => (segOf f ind b).length) hlen0) ind [] hpre
    have hchain : offChain (segOf f ind)
        ((scanAsc (fun b => (segOf f ind b).length) 256).1) 0 (List.range' 0 256) := by
      apply chain_range'
      intro j hj
      have hsp := (scanAsc_spec 256 (fun b => (segOf f ind b).length)).1 j
      rw [if_pos hj] at hsp
      simpa using hsp
    have hread := readout _ (segOf f ind) _ (fun b k hk => Hst b k hk)
      (List.range' 0 256) 0 hchain
    simp only [← List.range_eq_range'] at hread
    rw [htotal] at hread
    exact hread
  | false =>
    rw [if_neg (by simp), if_neg (by simp)]
    have Hst := scatter_inv f ind ((scanDesc (fun b => (segOf f ind b).length) 256).1)
      (fun _ => 0) (desc_disjoint (fun b => (segOf f ind b).length) hlen0) ind [] hpre
    have hchain : offChain (segOf f ind)
        ((scanDesc (fun b => (segOf f ind b).length) 256).1) 0
        ((List.range' 0 256).reverse) := by
      apply chain_range'_rev
      intro j hj
      have hsp := (scanDesc_spec 256 (fun b => (segOf f ind b).length)).1 j
      rw [if_pos hj] at hsp
      simpa using hsp
    have hread := readout _ (segOf f ind) _ (fun b k hk => Hst b k hk)
      ((List.range' 0 256).reverse) 0 hchain
    simp only [← List.range_eq_range'] at hread
    have hsums : ((List.range 256).reverse.map
        (fun b => (segOf f ind b).length)).sum =
        ((List.range 256).map (fun b => (segOf f ind b).length)).sum := by
      rw [List.map_reverse, List.sum_reverse]
    rw [hsums, htotal] at hread
    exact hread

theorem sublist_pair_range (i j n : Nat) (hij : i < j) (hjn : j < n) :
    List.Sublist [i, j] (List.range n) := by
  have hsplit : List.range n = List.range (i + 1) ++ List.range' (i + 1) (n - (i + 1)) := by
    rw [List.range_eq_range', List.range_eq_range']
    have := List.range'_append 0 (i + 1) (n - (i + 1)) 1
    simp only [Nat.one_mul, Nat.zero_add] at this
    have h2 : n - (i + 1) + (i + 1) = n := by omega
    rw [h2] at this
    exact this.symm
  rw [hsplit]
  have h1 : List.Sublist [i] (List.range (i + 1)) := by
    rw [List.range_succ]
    exact List.sublist_append_right (List.range i) [i]
  have h2 : List.Sublist [j] (List.range' (i + 1) (n - (i + 1))) := by
    rw [List.singleton_sublist, List.mem_range'_1]
    omega
  exact List.Sublist.append h1 h2

theorem pass_pair (keys : List Nat) (asc : Bool) (shift : Nat) (ind : List Nat)
    (i j : Nat) (hdig : radixDigit keys shift i = radixDigit keys shift j)
    (hsub : List.Sublist [i, j] ind) : List.Sublist [i, j] (radixPassGo keys asc shift ind) := by
  rw [radixPass_flat]
  have hseg : List.Sublist [i, j] (segOf (radixDigit keys shift) ind (radixDigit keys shift i)) := by
    have hfilter := hsub.filter (fun x => radixDigit keys shift x = radixDigit keys shift i)
    have hpair : [i, j].filter (fun x => radixDigit keys shift x = radixDigit keys shift i) =
        [i, j] := by
      simp [← hdig]
    rw [hpair] at hfilter
    exact hfilter
  have hmem : radixDigit keys shift i ∈
      (if asc then List.range 256 else (List.range 256).reverse) := by
    cases asc with
    | true =>
      rw [if_pos rfl, List.mem_range]
      exact radixDigit_lt keys shift i
    | false =>
      rw [if_neg (by simp), List.mem_reverse, List.mem_range]
      exact radixDigit_lt keys shift i
  obtain ⟨s, t, hst⟩ := List.append_of_mem hmem
  rw [hst, List.flatMap_append, List.flatMap_cons]
  have : List.Sublist (segOf (radixDigit keys shift) ind (radixDigit keys shift i))
      (s.flatMap (segOf (radixDigit keys shift) ind) ++
        (segOf (radixDigit keys shift) ind (radixDigit keys shift i) ++
          t.flatMap (segOf (radixDigit keys shift) ind))) := by
    apply List.sublist_append_of_sublist_right
    exact (List.sublist_append_left _ _)
  exact hseg.trans this

theorem radixSerial_stable (keys : List Nat) (asc : Bool) (i j : Nat)
    (hij : i < j) (hjn : j < keys.length)
    (hkeq : keys.getD i 0 = keys.getD j 0) :
    List.Sublist [i, j] (radixSortUint64Keys keys asc) := by
  unfold radixSortUint64Keys
  have hdig : ∀ shift, radixDigit keys shift i = radixDigit keys shift j := by
    intro shift
    unfold radixDigit
    rw [hkeq]
  have hbase : List.Sublist [i, j] (List.range keys.length) := sublist_pair_range i j keys.length hij hjn
  have hfold : ∀ (passes : List Nat) (ind : List Nat), List.Sublist [i, j] ind →
      List.Sublist [i, j]
        (passes.foldl (fun ind pass => radixPassGo keys asc (pass * 8) ind) ind) := by
    intro passes
    induction passes with
    | nil => intro ind h; exact h
    | cons p ps ih =>
      intro ind h
      exact ih _ (pass_pair keys asc (p * 8) ind i j (hdig (p * 8)) h)
  exact hfold (List.range 8) (List.range keys.length) hbase

theorem map_getD_full (l : List Nat) :
    (List.range' 0 l.length).map (fun i => l.getD i 0) = l := by
  apply map_range'_eq
  intro k hk
  simp

theorem shards_pos_concat : ∀ (W n ss : Nat),
    (List.range W).flatMap (fun w => shardPos n ss w) =
      List.range' 0 (min (W * ss) n) := by
  intro W
  induction W with
  | zero =>
    intro n ss
    simp
  | succ W ih =>
    intro n ss
    rw [List.range_succ, List.flatMap_append, ih, List.flatMap_cons]
    unfold shardPos
    simp only [List.flatMap_nil, List.append_nil]
    have hmul : (W + 1) * ss = W * ss + ss := by
      rw [Nat.succ_mul]
    rcases le_or_lt n (W * ss) with hle | hlt
    · have h1 : min (W * ss) n = n := by omega
      have h2 : min (W * ss + ss) n = n := by omega
      rw [h1, h2]
      have h3 : n - W * ss = 0 := by omega
      rw [h3]
      have h4 : min ((W + 1) * ss) n = n := by
        rw [hmul]
        omega
      rw [h4]
      simp
    · have h1 : min (W * ss) n = W * ss := by omega
      rw [h1]
      have happ := List.range'_append 0 (W * ss) (min (W * ss + ss) n - W * ss) 1
      simp only [Nat.one_mul, Nat.zero_add] at happ
      rw [happ]
      congr 1
      rw [hmul]
      omega

theorem seg_flat (f : Nat → Nat) :
    ∀ (ws : List Nat) (g : Nat → List Nat) (b : Nat),
      (segOf f (ws.flatMap g) b).length =
        (ws.map (fun w => (segOf f (g w) b).length)).sum := by
  intro ws
  induction ws with
  | nil =>
    intro g b
    simp [segOf]
  | cons w ws ih =>
    intro g b
    rw [List.flatMap_cons, segOf_append]
    simp [ih]

theorem shards_cover (ind : List Nat) (workers : Nat) (hw : 1 ≤ workers) :
    (List.range workers).flatMap
      (fun w => shardElems ind ind.length ((ind.length + workers - 1) / workers) w) =
      ind := by
  unfold shardElems
  rw [← List.map_flatMap, shards_pos_concat]
  have hcover : min (workers * ((ind.length + workers - 1) / workers)) ind.length =
      ind.length := by
    have := ceil_div_mul_ge ind.length workers hw
    omega
  rw [hcover, map_getD_full]

theorem parallel_scatter_eq (f : Nat → Nat) (gOff : Nat → Nat) (g : Nat → List Nat) :
    ∀ (W : Nat),
      (List.range W).foldl
        (fun tmp w => (scatterFold f (g w)
          (fun b => gOff b + ((List.range w).map
            (fun x => histo f (g x) (fun _ => 0) b)).sum, tmp)).2)
        (fun _ => 0) =
      (scatterFold f ((List.range W).flatMap g) (gOff, fun _ => 0)).2 := by
  intro W
  induction W with
  | zero => rfl
  | succ W ih =>
    rw [List.range_succ, List.foldl_append, List.flatMap_append]
    have happ : ∀ (l1 l2 : List Nat) (st : (Nat → Nat) × (Nat → Nat)),
        scatterFold f (l1 ++ l2) st = scatterFold f l2 (scatterFold f l1 st) := by
      intro l1 l2 st
      unfold scatterFold
      rw [List.foldl_append]
    rw [happ]
    simp only [List.foldl_cons, List.foldl_nil, List.flatMap_cons, List.flatMap_nil,
      List.append_nil]
    rw [ih]
    have hpair : ((fun b => gOff b + ((List.range W).map
          (fun x => histo f (g x) (fun _ => 0) b)).sum),
        (scatterFold f ((List.range W).flatMap g) (gOff, fun _ => 0)).2) =
        scatterFold f ((List.range W).flatMap g) (gOff, fun _ => 0) := by
      refine Prod.ext ?_ rfl
      funext b
      rw [scatter_counts]
      dsimp only
      rw [seg_flat]
      congr 1
      congr 1
      apply List.map_congr_left
      intro x _
      rw [histo_spec]
      simp
    rw [hpair]

theorem radixParallelPass_eq (workers : Nat) (keys : List Nat) (shift : Nat)
    (ind : List Nat) (hw : 1 ≤ workers) :
    radixParallelPass workers keys shift ind = radixPassGo keys true shift ind := by
  unfold radixParallelPass
  dsimp only
  rw [parallel_scatter_eq (radixDigit keys shift) _
    (fun w => shardElems ind ind.length ((ind.length + workers - 1) / workers) w) workers]
  rw [shards_cover ind workers hw]
  have hcnt : (fun b => ((List.range workers).map
      (fun w => histo (radixDigit keys shift)
        (shardElems ind ind.length ((ind.length + workers - 1) / workers) w)
        (fun _ => 0) b)).sum) =
      histo (radixDigit keys shift) ind (fun _ => 0) := by
    funext b
    rw [histo_spec]
    have hmapc : (List.range workers).map
        (fun w => histo (radixDigit keys shift)
          (shardElems ind ind.length ((ind.length + workers - 1) / workers) w)
          (fun _ => 0) b) =
        (List.range workers).map
          (fun w => (segOf (radixDigit keys shift)
            (shardElems ind ind.length ((ind.length + workers - 1) / workers) w)
            b).length) := by
      apply List.map_congr_left
      intro x _
      rw [histo_spec]
      simp
    rw [hmapc, ← seg_flat, shards_cover ind workers hw]
    simp
  rw [hcnt]
  unfold radixPassGo
  dsimp only
  rw [if_pos rfl]

theorem flatMap_nil_fun : ∀ (order : List Nat) (g : Nat → List Nat),
    (∀ b ∈ order, g b = []) → order.flatMap g = [] := by
  intro order
  induction order with
  | nil => intro g _; rfl
  | cons b rest ih =>
    intro g h
    rw [List.flatMap_cons, h b (List.mem_cons_self b rest),
      ih g (fun b2 hb2 => h b2 (List.mem_cons_of_mem b hb2))]
    rfl

theorem flatMap_seg_single (f : Nat → Nat) (i : Nat) :
    ∀ (order : List Nat), f i ∈ order → order.Nodup →
      order.flatMap (segOf f [i]) = [i] := by
  intro order
  induction order with
  | nil => intro h _; cases h
  | cons b rest ih =>
    intro hmem hnd
    rw [List.flatMap_cons]
    by_cases hb : f i = b
    · have hseg : segOf f [i] b = [i] := by
        unfold segOf
        simp [hb]
      rw [hseg]
      have hnotin : f i ∉ rest := by
        rw [hb]
        exact (List.nodup_cons.mp hnd).1
      have hrest : rest.flatMap (segOf f [i]) = [] := by
        apply flatMap_nil_fun
        intro b2 hb2
        unfold segOf
        have : ¬ f i = b2 := fun hc => hnotin (hc ▸ hb2)
        simp [this]
      rw [hrest]
      rfl
    · have hseg : segOf f [i] b = [] := by
        unfold segOf
        simp [hb]
      rw [hseg]
      have hmem2 : f i ∈ rest := by
        rcases List.mem_cons.mp hmem with h | h
        · exact absurd h hb
        · exact h
      rw [List.nil_append]
      exact ih hmem2 (List.nodup_cons.mp hnd).2

theorem radixSerial_short (keys : List Nat) (asc : Bool) (h : keys.length ≤ 1) :
    radixSortUint64Keys keys asc = List.range keys.length := by
  have horder : (if asc then List.range 256 else (List.range 256).reverse).Nodup := by
    cases asc with
    | true => rw [if_pos rfl]; exact List.nodup_range 256
    | false => rw [if_neg (by simp)]; exact List.nodup_reverse.mpr (List.nodup_range 256)
  have hmem : ∀ shift i, radixDigit keys shift i ∈
      (if asc then List.range 256 else (List.range 256).reverse) := by
    intro shift i
    cases asc with
    | true => rw [if_pos rfl, List.mem_range]; exact radixDigit_lt keys shift i
    | false =>
      rw [if_neg (by simp), List.mem_reverse, List.mem_range]
      exact radixDigit_lt keys shift i
  unfold radixSortUint64Keys
  rcases Nat.le_one_iff_eq_zero_or_eq_one.mp h with h0 | h1
  · rw [h0]
    have : ∀ ps : List Nat,
        ps.foldl (fun ind pass => radixPassGo keys asc (pass * 8) ind) (List.range 0) =
          List.range 0 := by
      intro ps
      induction ps with
      | nil => rfl
      | cons p ps ih =>
        simp only [List.foldl_cons]
        have hpass : radixPassGo keys asc (p * 8) (List.range 0) = List.range 0 := by
          rw [show List.range 0 = ([] : List Nat) from rfl, radixPass_flat]
          apply flatMap_nil_fun
          intro b _
          rfl
        rw [hpass]
        exact ih
    exact this (List.range 8)
  · rw [h1]
    have : ∀ ps : List Nat,
        ps.foldl (fun ind pass => radixPassGo keys asc (pass * 8) ind) (List.range 1) =
          List.range 1 := by
      intro ps
      induction ps with
      | nil => rfl
      | cons p ps ih =>
        simp only [List.foldl_cons]
        have hpass : radixPassGo keys asc (p * 8) (List.range 1) = List.range 1 := by
          rw [show List.range 1 = [0] from rfl, radixPass_flat]
          exact flatMap_seg_single _ 0 _ (hmem (p * 8) 0) horder
        rw [hpass]
        exact ih
    exact this (List.range 8)

theorem parallel_fold_serial (workers : Nat) (keys : List Nat) (hw : 1 ≤ workers) :
    ∀ (ps : List Nat) (ind : List Nat),
      ps.foldl (fun ind pass => radixParallelPass workers keys (pass * 8) ind) ind =
        ps.foldl (fun ind pass => radixPassGo keys true (pass * 8) ind) ind := by
  intro ps
  induction ps with
  | nil => intro ind; rfl
  | cons p ps ih =>
    intro ind
    simp only [List.foldl_cons]
    rw [radixParallelPass_eq workers keys (p * 8) ind hw]
    exact ih _

theorem radixParallel_asc (workers : Nat) (keys : List Nat) :
    radixSortUint64KeysParallel workers keys true = radixSortUint64Keys keys true := by
  unfold radixSortUint64KeysParallel
  dsimp only
  by_cases h1 : keys.length ≤ 1
  · rw [if_pos h1, radixSerial_short keys true h1]
  · rw [if_neg h1]
    by_cases h2 : workers < 2 ∨ keys.length < 2 ^ 15
    · rw [if_pos h2]
    · rw [if_neg h2]
      rw [if_pos rfl]
      have hw : 1 ≤ workers := by
        push_neg at h2
        omega
      rw [parallel_fold_serial workers keys hw (List.range 8) (List.range keys.length)]
      rfl

theorem radixParallel_desc (workers : Nat) (keys : List Nat) (hw : 2 ≤ workers)
    (hn : 2 ^ 15 ≤ keys.length) :
    radixSortUint64KeysParallel workers keys false =
      (radixSortUint64Keys keys true).reverse := by
  unfold radixSortUint64KeysParallel
  dsimp only
  rw [if_neg (by omega)]
  rw [if_neg (by push_neg; constructor <;> omega)]
  rw [if_neg (by simp)]
  rw [parallel_fold_serial workers keys (by omega) (List.range 8) (List.range keys.length)]
  rfl

theorem flatMap_single_support (g : Nat → List Nat) (b0 : Nat) :
    ∀ (order : List Nat), b0 ∈ order → order.Nodup →
      (∀ b, b ≠ b0 → g b = []) → order.flatMap g = g b0 := by
  intro order
  induction order with
  | nil => intro h _ _; cases h
  | cons b rest ih =>
    intro hmem hnd hsupp
    rw [List.flatMap_cons]
    by_cases hb : b = b0
    · subst hb
      have hnotin : b ∉ rest := (List.nodup_cons.mp hnd).1
      have hrest : rest.flatMap g = [] := by
        apply flatMap_nil_fun
        intro b2 hb2
        exact hsupp b2 (fun hc => hnotin (hc ▸ hb2))
      rw [hrest]
      simp
    · rw [hsupp b hb]
      have hmem2 : b0 ∈ rest := by
        rcases List.mem_cons.mp hmem with h | h
        · exact absurd h.symm hb
        · exact h
      rw [List.nil_append]
      exact ih hmem2 (List.nodup_cons.mp hnd).2 hsupp

theorem replicate_getD : ∀ (n i : Nat), (List.replicate n (0 : Nat)).getD i 0 = 0 := by
  intro n
  induction n with
  | zero => intro i; simp
  | succ n ih =>
    intro i
    cases i with
    | zero => simp [List.replicate]
    | succ i =>
      rw [List.replicate_succ]
      simp only [List.getD_cons_succ]
      exact ih i

theorem replicate_digit (n shift i : Nat) :
    radixDigit (List.replicate n 0) shift i = 0 := by
  unfold radixDigit
  rw [replicate_getD]
  simp

theorem radixSerial_replicate (n : Nat) (asc : Bool) :
    radixSortUint64Keys (List.replicate n 0) asc = List.range n := by
  have hpass : ∀ (shift : Nat) (ind : List Nat),
      radixPassGo (List.replicate n 0) asc shift ind = ind := by
    intro shift ind
    rw [radixPass_flat]
    have hseg0 : segOf (radixDigit (List.replicate n 0) shift) ind 0 = ind := by
      unfold segOf
      apply List.filter_eq_self.mpr
      intro i _
      simp [replicate_digit]
    have hsegb : ∀ b, b ≠ 0 → segOf (radixDigit (List.replicate n 0) shift) ind b = [] := by
      intro b hb
      unfold segOf
      rw [List.filter_eq_nil_iff]
      intro i _
      simp [replicate_digit]
      omega
    have hmem : (0 : Nat) ∈ (if asc then List.range 256 else (List.range 256).reverse) := by
      cases asc with
      | true => rw [if_pos rfl, List.mem_range]; omega
      | false => rw [if_neg (by simp), List.mem_reverse, List.mem_range]; omega
    have hnd : (if asc then List.range 256 else (List.range 256).reverse).Nodup := by
      cases asc with
      | true => rw [if_pos rfl]; exact List.nodup_range 256
      | false => rw [if_neg (by simp)]; exact List.nodup_reverse.mpr (List.nodup_range 256)
    rw [flatMap_single_support _ 0 _ hmem hnd hsegb, hseg0]
  unfold radixSortUint64Keys
  have hlen : (List.replicate n (0 : Nat)).length = n := by simp
  rw [hlen]
  have : ∀ ps : List Nat,
      ps.foldl (fun ind pass => radixPassGo (List.replicate n 0) asc (pass * 8) ind)
        (List.range n) = List.range n := by
    intro ps
    induction ps with
    | nil => rfl
    | cons p ps ih =>
      simp only [List.foldl_cons]
      rw [hpass]
      exact ih
  exact this (List.range 8)

/-- C3: the serial radix sort is stable for both directions (descending is
obtained by reversing the offset scan), and the parallel variant refines
the serial one for ascending sorts; but the parallel variant obtains
descending output by reversing its ascending output (not by reversing the
scan direction), so parallel descending sorts reverse the relative order
of equal keys and are not stable. -/
theorem claim_C3 :
    (∀ (keys : List Nat) (asc : Bool) (i j : Nat), i < j → j < keys.length →
      keys.getD i 0 = keys.getD j 0 →
      List.Sublist [i, j] (radixSortUint64Keys keys asc)) ∧
    (∀ (workers : Nat) (keys : List Nat),
      radixSortUint64KeysParallel workers keys true = radixSortUint64Keys keys true) ∧
    (∀ (workers : Nat) (keys : List Nat) (i j : Nat), i < j → j < keys.length →
      keys.getD i 0 = keys.getD j 0 →
      List.Sublist [i, j] (radixSortUint64KeysParallel workers keys true)) ∧
    (∀ (workers : Nat) (keys : List Nat), 2 ≤ workers → 2 ^ 15 ≤ keys.length →
      radixSortUint64KeysParallel workers keys false =
        (radixSortUint64KeysParallel workers keys true).reverse) := by
  refine ⟨?_, ?_, ?_, ?_⟩
  · intro keys asc i j hij hjn hkeq
    exact radixSerial_stable keys asc i j hij hjn hkeq
  · intro workers keys
    exact radixParallel_asc workers keys
  · intro workers keys i j hij hjn hkeq
    rw [radixParallel_asc workers keys]
    exact radixSerial_stable keys true i j hij hjn hkeq
  · intro workers keys hw hn
    rw [radixParallel_desc workers keys hw hn, radixParallel_asc workers keys]

theorem claim_C3_witness :
    List.Sublist [0, 1] (radixSortUint64Keys [5, 5] true) ∧
    radixSortUint64KeysParallel 2 (List.replicate 32768 0) false =
      (radixSortUint64KeysParallel 2 (List.replicate 32768 0) true).reverse :=
  ⟨claim_C3.1 [5, 5] true 0 1 (by decide) (by decide) (by decide),
   claim_C3.2.2.2 2 (List.replicate 32768 0) (by decide)
     (by rw [List.length_replicate]; norm_num)⟩

/-- C3 counterexample: with 32768 equal keys and two workers (so the
parallel guard passes), the parallel descending sort returns the reversed
identity permutation: every pair of equal keys comes back in reversed
relative order, while the serial descending sort keeps the original
order. -/
theorem claim_C3_counterexample :
    radixSortUint64KeysParallel 2 (List.replicate 32768 0) false =
      (List.range 32768).reverse ∧
    (List.replicate 32768 (0 : Nat)).getD 0 0 = (List.replicate 32768 (0 : Nat)).getD 1 0 ∧
    ¬ List.Sublist [0, 1]
        (radixSortUint64KeysParallel 2 (List.replicate 32768 0) false) ∧
    List.Sublist [0, 1] (radixSortUint64Keys (List.replicate 32768 0) false) := by
  have hpar : radixSortUint64KeysParallel 2 (List.replicate 32768 0) false =
      (List.range 32768).reverse := by
    rw [radixParallel_desc 2 (List.replicate 32768 0) (by decide)
      (by rw [List.length_replicate]; norm_num),
      radixSerial_replicate 32768 true]
  refine ⟨hpar, by rw [replicate_getD, replicate_getD], ?_, ?_⟩
  · rw [hpar]
    intro hsub
    have hpw : ((List.range 32768).reverse).Pairwise (fun a b => b < a) := by
      rw [List.pairwise_reverse]
      exact List.pairwise_lt_range 32768
    have := hpw.sublist hsub
    have h01 := List.pairwise_cons.mp this
    have := h01.1 1 (List.mem_singleton.mpr rfl)
    omega
  · exact radixSerial_stable (List.replicate 32768 0) false 0 1 (by decide)
      (by rw [List.length_replicate]; norm_num)
      (by rw [replicate_getD, replicate_getD])
